import Mathlib

/-!
Verification of the JSON tree data model and its structural-edit algebra
(path-addressed get/set/delete, plugin reordering, edit-time literal
coercion, parent-display-configuration synchronization, preset saving)
of the json-editor repository.

JSON values are embedded as an inductive type; mutable JavaScript
structures are modelled either functionally (with `Except` capturing a
thrown `TypeError`) or, where a claim is about in-place mutation, with an
explicit heap of addressed cells.  JavaScript numbers are modelled as
rationals; object key enumeration order is modelled as insertion order.
-/

namespace JsonEditor

/-- The universal JSON value: `null`, booleans, numbers, strings,
objects (insertion-ordered field lists) and arrays. -/
inductive JsonValue where
  | null : JsonValue
  | bool (b : Bool) : JsonValue
  | num (q : Rat) : JsonValue
  | str (s : String) : JsonValue
  | obj (fields : List (String × JsonValue)) : JsonValue
  | arr (items : List JsonValue) : JsonValue

/-- Value of a run of decimal digits. -/
def digitsToNat (ds : List Char) : Nat :=
  ds.foldl (fun n c => 10 * n + (c.toNat - '0'.toNat)) 0

/-- A string is a canonical array index (`"0"`, `"17"`, ...) exactly when
it is the canonical decimal representation of a natural number (digits
only, no leading zero except for `"0"` itself); JavaScript treats only
such property keys as array indices. -/
def canonIndex (s : String) : Option Nat :=
  match s.data with
  | [] => none
  | c :: cs =>
    if (c :: cs).all Char.isDigit = true ∧ (c ≠ '0' ∨ cs = []) then
      some (digitsToNat (c :: cs))
    else none

/-- JavaScript property read `v[key]` on a JSON value; `none` is the
JavaScript `undefined`.  Object lookup returns the first binding; string
values expose `length` and their characters; prototype methods are not
modelled. -/
def jsGet (v : JsonValue) (key : String) : Option JsonValue :=
  match v with
  | .null => none
  | .bool _ => none
  | .num _ => none
  | .str s =>
    if key = "length" then some (.num s.length)
    else
      match canonIndex key with
      | some i =>
        match s.toList.get? i with
        | some c => some (.str (String.singleton c))
        | none => none
      | none => none
  | .obj fields =>
    match fields.find? (fun p => p.1 = key) with
    | some p => some p.2
    | none => none
  | .arr items =>
    if key = "length" then some (.num items.length)
    else
      match canonIndex key with
      | some i => items.get? i
      | none => none

/-- Loop of `getValueByPath` (part_005 lines 221-230): each iteration
returns `undefined` (`none`) if the current value is `null` or
`undefined`, otherwise reads `current[key]`. -/
def getLoop : Option JsonValue → List String → Option JsonValue
  | cur, [] => cur
  | none, _ :: _ => none
  | some .null, _ :: _ => none
  | some cur, key :: rest => getLoop (jsGet cur key) rest

/-- `getValueByPath(obj, path)` from part_005: total, returns `none` for a
read miss instead of throwing. -/
def getValueByPath (obj : JsonValue) (path : List String) : Option JsonValue :=
  getLoop (some obj) path

/-- JavaScript assignment `o[key] = v` on an object: an existing binding
is updated in place (key order preserved), a new key is appended
(append-on-first-write insertion order). -/
def objSet : List (String × JsonValue) → String → JsonValue → List (String × JsonValue)
  | [], key, v => [(key, v)]
  | (k, w) :: rest, key, v =>
    if k = key then (k, v) :: rest else (k, w) :: objSet rest key v

/-- JavaScript `delete o[key]` on an object: the binding for `key` is
removed (JavaScript objects never hold duplicate keys, so removing every
occurrence agrees with removing the one own property). -/
def removeKey : List (String × JsonValue) → String → List (String × JsonValue)
  | [], _ => []
  | (k, v) :: rest, key =>
    if k = key then removeKey rest key else (k, v) :: removeKey rest key

/-- Walk of `setValueByPath` (part_005 lines 243-252), acting on the deep
copy: `if (current[key] === undefined) current[key] = {}` then
`current = current[key]` for the leading segments, and finally
`current[lastKey] = value`.  The copy is a tree, so mutating through the
alias and writing the updated child back are equivalent.  A scalar
intermediate makes the walk throw: any property access on `null`, and any
property assignment on a primitive, is a strict-mode TypeError (an
assignment reached through a string intermediate always ends at such an
assignment).  Assignments that would create a string-keyed, sparse, or
length-resizing array slot fall outside the JSON value model and are
signalled as errors as well. -/
def setWalk : JsonValue → List String → JsonValue → Except Unit JsonValue
  | cur, [], _ => .ok cur
  | .obj fields, [key], value => .ok (.obj (objSet fields key value))
  | .arr items, [key], value =>
    (match canonIndex key with
     | some i =>
       if i < items.length then .ok (.arr (items.set i value))
       else if i = items.length then .ok (.arr (items ++ [value]))
       else .error ()
     | none => .error ())
  | .obj fields, key :: r1 :: rs, value =>
    (match jsGet (.obj fields) key with
     | some child => (setWalk child (r1 :: rs) value).map (fun c => .obj (objSet fields key c))
     | none => (setWalk (.obj []) (r1 :: rs) value).map (fun c => .obj (objSet fields key c)))
  | .arr items, key :: r1 :: rs, value =>
    (match canonIndex key with
     | some i =>
       match items.get? i with
       | some child => (setWalk child (r1 :: rs) value).map (fun c => .arr (items.set i c))
       | none =>
         if i = items.length then
           (setWalk (.obj []) (r1 :: rs) value).map (fun c => .arr (items ++ [c]))
         else .error ()
     | none => .error ())
  | _, _ :: _, _ => .error ()

/-- `setValueByPath(obj, path, value)` (part_005 lines 235-255): an empty
path returns `value` itself; otherwise the deep copy of `obj` is walked
and mutated, with intermediate object levels created for absent
segments. -/
def setValueByPath (obj : JsonValue) (path : List String) (value : JsonValue) :
    Except Unit JsonValue :=
  match path with
  | [] => .ok value
  | k :: rest => setWalk obj (k :: rest) value

/-- JavaScript whitespace as far as these sources exercise it (space,
tab, line feed, carriage return). -/
def isJsWs (c : Char) : Bool :=
  c == ' ' || c == '\t' || c == '\n' || c == '\r'

/-- Longest leading run of decimal digits, as a number; `none` when there
is no leading digit. -/
def parseDigits (cs : List Char) : Option Nat :=
  let ds := cs.takeWhile Char.isDigit
  if ds.isEmpty then none else some (digitsToNat ds)

/-- Sign handling of `parseInt` after whitespace skipping. -/
def parseIntFrom : List Char → Option Int
  | [] => none
  | c :: tl =>
    if c = '-' then (parseDigits tl).map (fun n => -(n : Int))
    else if c = '+' then (parseDigits tl).map (fun n => (n : Int))
    else (parseDigits (c :: tl)).map (fun n => (n : Int))

/-- JavaScript `parseInt(s)` restricted to sign-and-decimal-digit forms:
leading whitespace is skipped, an optional sign is read, then the longest
leading run of decimal digits; `none` is `NaN`.  (Radix-prefix forms such
as `0x…` are not modelled.) -/
def parseIntJS (s : String) : Option Int :=
  parseIntFrom (s.data.dropWhile isJsWs)

/-- `Array.prototype.splice(start, 1)`: `start` is clamped
(`NaN ↦ 0` is handled by the caller, negative values count from the end)
and one element is removed at the clamped position. -/
def spliceOne (items : List JsonValue) (start : Int) : List JsonValue :=
  let s : Nat := if start < 0 then (items.length + start).toNat else min start.toNat items.length
  items.take s ++ items.drop (s + 1)

/-- Final step of `deleteValueByPath` (part_005 lines 276-281):
`Array.isArray(current) ? current.splice(parseInt(lastKey), 1)
: delete current[lastKey]`.  Deleting a configurable-free property of a
string primitive, or any property of `null`, throws in strict mode;
`delete` on a boolean/number primitive is a successful no-op. -/
def jsDeleteProp : JsonValue → String → Except Unit JsonValue
  | .arr items, key =>
    let start : Int :=
      match parseIntJS key with
      | some i => i
      | none => 0
    .ok (.arr (spliceOne items start))
  | .obj fields, key => .ok (.obj (removeKey fields key))
  | .null, _ => .error ()
  | .bool b, _ => .ok (.bool b)
  | .num q, _ => .ok (.num q)
  | .str s, key =>
    if key = "length" then .error ()
    else
      match canonIndex key with
      | some i => if i < s.length then .error () else .ok (.str s)
      | none => .ok (.str s)

/-- Writing the updated child back into its parent after the recursive
step of the delete walk.  The source mutates the child through an alias,
so only reference values (objects and arrays) are written through; a
primitive child is a copy and the parent is left untouched. -/
def writeBack (cur : JsonValue) (key : String) (child : JsonValue) : JsonValue :=
  match cur with
  | .obj fields => .obj (objSet fields key child)
  | .arr items =>
    (match canonIndex key with
     | some i => .arr (items.set i child)
     | none => .arr items)
  | other => other

/-- Walk of `deleteValueByPath` (part_005 lines 268-281): for leading
segments, `if (current[key] === undefined) return newObj` (the copy is
returned unchanged) else `current = current[key]`; reading a property of
`null` throws. -/
def delWalk : JsonValue → List String → Except Unit JsonValue
  | cur, [] => .ok cur
  | cur, [key] => jsDeleteProp cur key
  | cur, key :: r1 :: rs =>
    match cur with
    | .null => .error ()
    | _ =>
      match jsGet cur key with
      | none => .ok cur
      | some child => (delWalk child (r1 :: rs)).map (fun c => writeBack cur key c)

/-- `deleteValueByPath(obj, path)` (part_005 lines 260-284): an empty path
returns the copy unchanged; otherwise the copy is walked and the final
property is removed (array parents splice, object parents delete the
key). -/
def deleteValueByPath (obj : JsonValue) (path : List String) : Except Unit JsonValue :=
  match path with
  | [] => .ok obj
  | k :: rest => delWalk obj (k :: rest)

/-! ### C1: round-trip of path-addressed access -/

/-- Claim C1 verbatim: for every JSON value `v`, every path `p` and every
value `x`, `getByPath (setByPath v p x) p` returns `x`. -/
def ClaimC1 : Prop :=
  ∀ (v : JsonValue) (p : List String) (x : JsonValue),
    ∃ r, setValueByPath v p x = .ok r ∧ getValueByPath r p = some x

theorem objSet_find (fields : List (String × JsonValue)) (k : String) (v : JsonValue) :
    (objSet fields k v).find? (fun p => p.1 = k) = some (k, v) := by
  induction fields with
  | nil => simp [objSet]
  | cons hd tl ih =>
    obtain ⟨k1, w⟩ := hd
    by_cases h : k1 = k
    · subst h
      simp [objSet]
    · simp [objSet, h, List.find?, ih]

theorem get?_set_lt {α : Type _} (l : List α) (i : Nat) (a : α) (h : i < l.length) :
    (l.set i a)[i]? = some a := by
  induction l generalizing i with
  | nil => simp at h
  | cons hd tl ih =>
    cases i with
    | zero => simp
    | succ n => simpa using ih n (by simpa using h)

theorem get?_append_singleton {α : Type _} (l : List α) (a : α) :
    (l ++ [a])[l.length]? = some a := by
  induction l with
  | nil => simp
  | cons hd tl ih => simpa using ih

theorem getLoop_nil (cur : Option JsonValue) : getLoop cur [] = cur := by
  cases cur with
  | none => rfl
  | some v => cases v <;> rfl

theorem get?_lt_length {α : Type _} {l : List α} {i : Nat} {a : α}
    (h : l.get? i = some a) : i < l.length := by
  induction l generalizing i with
  | nil => simp [List.get?] at h
  | cons hd tl ih =>
    cases i with
    | zero => simp
    | succ n =>
      have := ih (by simpa using h)
      simp only [List.length_cons]
      exact Nat.succ_lt_succ this

theorem canonIndex_ne_length {key : String} {i : Nat} (h : canonIndex key = some i) :
    key ≠ "length" := by
  intro e
  subst e
  have : canonIndex "length" = none := rfl
  rw [this] at h
  cases h

theorem setWalk_get (p : List String) :
    ∀ (v x r : JsonValue), p ≠ [] → setWalk v p x = .ok r →
      getLoop (some r) p = some x := by
  induction p with
  | nil => intro v x r h; exact absurd rfl h
  | cons key rest ih =>
    intro v x r _ hset
    match rest, v with
    | [], .null => simp [setWalk] at hset
    | [], .bool b => simp [setWalk] at hset
    | [], .num q => simp [setWalk] at hset
    | [], .str s => simp [setWalk] at hset
    | [], .obj fields =>
      simp only [setWalk, Except.ok.injEq] at hset
      subst hset
      simp [getLoop, jsGet, objSet_find]
    | [], .arr items =>
      simp only [setWalk] at hset
      split at hset
      case h_1 i hc =>
        split at hset
        case isTrue hi =>
          injection hset with h
          subst h
          simp [getLoop, jsGet, hc, canonIndex_ne_length hc, get?_set_lt _ _ _ hi]
        case isFalse hi =>
          split at hset
          case isTrue he =>
            injection hset with h
            subst h
            subst he
            simp [getLoop, jsGet, hc, canonIndex_ne_length hc, get?_append_singleton]
          case isFalse he => cases hset
      case h_2 hc => cases hset
    | r1 :: rs, .null => simp [setWalk] at hset
    | r1 :: rs, .bool b => simp [setWalk] at hset
    | r1 :: rs, .num q => simp [setWalk] at hset
    | r1 :: rs, .str s => simp [setWalk] at hset
    | r1 :: rs, .obj fields =>
      simp only [setWalk] at hset
      split at hset
      case h_1 child hg =>
        cases hw : setWalk child (r1 :: rs) x with
        | error e => rw [hw] at hset; cases hset
        | ok c =>
          rw [hw] at hset
          simp only [Except.map, Except.ok.injEq] at hset
          subst hset
          have hrec := ih child x c (by simp) hw
          simp [getLoop, jsGet, objSet_find, hrec]
      case h_2 hg =>
        cases hw : setWalk (.obj []) (r1 :: rs) x with
        | error e => rw [hw] at hset; cases hset
        | ok c =>
          rw [hw] at hset
          simp only [Except.map, Except.ok.injEq] at hset
          subst hset
          have hrec := ih (.obj []) x c (by simp) hw
          simp [getLoop, jsGet, objSet_find, hrec]
    | r1 :: rs, .arr items =>
      simp only [setWalk] at hset
      split at hset
      case h_1 i hc =>
        split at hset
        case h_1 child hg =>
          cases hw : setWalk child (r1 :: rs) x with
          | error e => rw [hw] at hset; cases hset
          | ok c =>
            rw [hw] at hset
            simp only [Except.map, Except.ok.injEq] at hset
            subst hset
            have hlt : i < items.length := get?_lt_length hg
            have hrec := ih child x c (by simp) hw
            simp [getLoop, jsGet, hc, canonIndex_ne_length hc, get?_set_lt _ _ _ hlt, hrec]
        case h_2 hg =>
          split at hset
          case isTrue he =>
            cases hw : setWalk (.obj []) (r1 :: rs) x with
            | error e => rw [hw] at hset; cases hset
            | ok c =>
              rw [hw] at hset
              simp only [Except.map, Except.ok.injEq] at hset
              subst hset
              subst he
              have hrec := ih (.obj []) x c (by simp) hw
              simp [getLoop, jsGet, hc, canonIndex_ne_length hc, get?_append_singleton, hrec]
          case isFalse he => cases hset
      case h_2 hc => cases hset

/-- C1, amended: whenever `setValueByPath` completes without throwing
(`.ok`), reading the written path back yields exactly the written value.
The unrestricted claim is false: a scalar intermediate on the path makes
`setValueByPath` throw a TypeError (see `C1_counterexample`). -/
theorem C1_roundtrip_of_set_ok (v : JsonValue) (p : List String) (x r : JsonValue)
    (h : setValueByPath v p x = .ok r) : getValueByPath r p = some x := by
  match p with
  | [] =>
    simp only [setValueByPath, Except.ok.injEq] at h
    subst h
    exact getLoop_nil (some x)
  | k :: rest =>
    exact setWalk_get (k :: rest) v x r (by simp) h

/-- Witness for `C1_roundtrip_of_set_ok` at a concrete input:
setting `["b","c"]` in `{a: 5}` creates the intermediate object and the
round-trip reads the written value back. -/
theorem C1_roundtrip_witness :
    getValueByPath (.obj [("a", .num 5), ("b", .obj [("c", .num 1)])]) ["b", "c"]
      = some (.num 1) :=
  C1_roundtrip_of_set_ok (.obj [("a", .num 5)]) ["b", "c"] (.num 1) _ rfl

/-- Counterexample to claim C1 as stated: with `v = {a: 5}`,
`p = ["a","b"]`, `x = 1`, the walk reaches the scalar `5` and the
strict-mode assignment `5["b"] = {}` throws, so `setByPath` produces no
new root at all (and a fortiori the round-trip does not return `x`). -/
theorem C1_counterexample : ¬ ClaimC1 := by
  intro h
  obtain ⟨r, hr, -⟩ := h (.obj [("a", .num 5)]) ["a", "b"] (.num 1)
  have : setValueByPath (.obj [("a", .num 5)]) ["a", "b"] (.num 1) = .error () := rfl
  rw [this] at hr
  exact Except.noConfusion hr

/-! ### C6: delete semantics by parent kind -/

theorem takeWhile_all {α : Type _} {p : α → Bool} :
    ∀ {l : List α}, l.all p = true → l.takeWhile p = l := by
  intro l
  induction l with
  | nil => intro _; rfl
  | cons hd tl ih =>
    intro h
    simp only [List.all_cons, Bool.and_eq_true] at h
    simp [List.takeWhile_cons, h.1, ih h.2]

theorem isJsWs_of_isDigit {c : Char} (h : c.isDigit = true) : isJsWs c = false := by
  cases hw : isJsWs c with
  | false => rfl
  | true =>
    simp only [isJsWs, Bool.or_eq_true, beq_iff_eq] at hw
    rcases hw with ((h1 | h1) | h1) | h1 <;> (subst h1; cases h)

theorem canonIndex_elim {s : String} {i : Nat} (h : canonIndex s = some i) :
    ∃ c cs, s.data = c :: cs ∧ (c :: cs).all Char.isDigit = true ∧
      digitsToNat (c :: cs) = i := by
  cases hd : s.data with
  | nil =>
    simp only [canonIndex, hd] at h
    exact Option.noConfusion h
  | cons c cs =>
    simp only [canonIndex, hd] at h
    split at h
    next hc =>
      injection h with hi
      exact ⟨c, cs, rfl, hc.1, hi⟩
    next hc => cases h

theorem canonIndex_parseIntJS {s : String} {i : Nat} (h : canonIndex s = some i) :
    parseIntJS s = some (i : Int) := by
  obtain ⟨c, cs, hd, hall, hval⟩ := canonIndex_elim h
  have hcd : c.isDigit = true := by
    simp only [List.all_cons, Bool.and_eq_true] at hall
    exact hall.1
  have hcm : c ≠ '-' := by intro e; subst e; cases hcd
  have hcp : c ≠ '+' := by intro e; subst e; cases hcd
  unfold parseIntJS
  rw [hd, List.dropWhile_cons, isJsWs_of_isDigit hcd]
  simp only [Bool.false_eq_true, if_false, parseIntFrom, if_neg hcm, if_neg hcp,
    parseDigits, takeWhile_all hall]
  simp [hval]

/-- Scalar primitives (booleans, numbers, strings): the JavaScript values
with no reference identity among JSON values. -/
def isScalarPrim : JsonValue → Bool
  | .bool _ => true
  | .num _ => true
  | .str _ => true
  | _ => false

theorem jsGet_primitive {v w : JsonValue} {key : String} (hv : isScalarPrim v = true)
    (h : jsGet v key = some w) : isScalarPrim w = true := by
  match v with
  | .bool b => cases h
  | .num q => cases h
  | .str s =>
    simp only [jsGet] at h
    split at h
    · injection h with h'; subst h'; rfl
    · split at h
      · split at h
        · injection h with h'; subst h'; rfl
        · cases h
      · cases h

theorem delWalk_ok_primitive (ps : List String) :
    ∀ {v r : JsonValue}, isScalarPrim v = true → delWalk v ps = .ok r → r = v := by
  induction ps with
  | nil =>
    intro v r _ h
    injection h with h'
    exact h'.symm
  | cons key rest ih =>
    intro v r hv h
    match rest with
    | [] =>
      match v with
      | .bool b => injection h with h'; exact h'.symm
      | .num q => injection h with h'; exact h'.symm
      | .str s =>
        simp only [delWalk, jsDeleteProp] at h
        split at h
        · cases h
        · split at h
          · split at h
            · cases h
            · injection h with h'; exact h'.symm
          · injection h with h'; exact h'.symm
    | r1 :: rs =>
      match v with
      | .bool b => simp only [delWalk, jsGet] at h; injection h with h'; exact h'.symm
      | .num q => simp only [delWalk, jsGet] at h; injection h with h'; exact h'.symm
      | .str s =>
        simp only [delWalk] at h
        cases hg : jsGet (.str s) key with
        | none =>
          rw [hg] at h
          injection h with h'
          exact h'.symm
        | some child =>
          rw [hg] at h
          cases hw : delWalk child (r1 :: rs) with
          | error e =>
            simp only [Except.map, hw] at h
            exact Except.noConfusion h
          | ok c =>
            simp only [Except.map, hw, Except.ok.injEq] at h
            subst h
            rfl

theorem getLoop_none (rest : List String) : getLoop none rest = none := by
  cases rest <;> rfl

theorem getLoop_cons {v : JsonValue} (hv : v ≠ .null) (key : String) (rest : List String) :
    getLoop (some v) (key :: rest) = getLoop (jsGet v key) rest := by
  match v, hv with
  | .bool b, _ => rfl
  | .num q, _ => rfl
  | .str s, _ => rfl
  | .obj f, _ => rfl
  | .arr l, _ => rfl

theorem delWalk_cons {v : JsonValue} (hv : v ≠ .null) (key a : String) (as : List String) :
    delWalk v (key :: a :: as)
      = match jsGet v key with
        | none => .ok v
        | some child => (delWalk child (a :: as)).map (fun c => writeBack v key c) := by
  match v, hv with
  | .bool b, _ => rfl
  | .num q, _ => rfl
  | .str s, _ => rfl
  | .obj f, _ => rfl
  | .arr l, _ => rfl

theorem getLoop_primitive (rest : List String) :
    ∀ {v w : JsonValue}, isScalarPrim v = true →
      getLoop (some v) rest = some w → isScalarPrim w = true := by
  induction rest with
  | nil =>
    intro v w hv h
    rw [getLoop_nil] at h
    injection h with h'
    subst h'
    exact hv
  | cons key rs ih =>
    intro v w hv h
    have hv' : v ≠ .null := by
      intro e; subst e; cases hv
    rw [getLoop_cons hv' key rs] at h
    cases hg : jsGet v key with
    | none =>
      rw [hg, getLoop_none] at h
      cases h
    | some child =>
      rw [hg] at h
      exact ih (jsGet_primitive hv hg) h

/-- Core frame lemma for `deleteValueByPath`: if the walk reaches the
value `parent` at path `p` and the final deletion step turns `parent`
into `pr`, then the whole call succeeds and the result holds `pr` at
`p`. -/
theorem delete_at_parent (p : List String) :
    ∀ (v parent pr : JsonValue) (k : String),
      getValueByPath v p = some parent →
      jsDeleteProp parent k = .ok pr →
      ∃ r, deleteValueByPath v (p ++ [k]) = .ok r ∧ getValueByPath r p = some pr := by
  induction p with
  | nil =>
    intro v parent pr k hget hdel
    rw [getValueByPath, getLoop_nil] at hget
    injection hget with h'
    subst h'
    exact ⟨pr, by simpa [deleteValueByPath, delWalk] using hdel,
      by rw [getValueByPath, getLoop_nil]⟩
  | cons key rest ih =>
    intro v parent pr k hget hdel
    have hv : v ≠ .null := by
      intro e; subst e
      simp only [getValueByPath, getLoop] at hget
      exact Option.noConfusion hget
    rw [getValueByPath, getLoop_cons hv key rest] at hget
    cases hg : jsGet v key with
    | none =>
      rw [hg, getLoop_none] at hget
      cases hget
    | some child =>
      rw [hg] at hget
      have hchild : getValueByPath child rest = some parent := hget
      obtain ⟨r', hr', hgr'⟩ := ih child parent pr k hchild hdel
      have hr'walk : delWalk child (rest ++ [k]) = .ok r' := by
        cases rest with
        | nil => exact hr'
        | cons a as => exact hr'
      refine ⟨writeBack v key r', ?_, ?_⟩
      · show delWalk v (key :: (rest ++ [k])) = .ok (writeBack v key r')
        obtain ⟨a, as, has⟩ : ∃ a as, rest ++ [k] = a :: as := by
          cases rest with
          | nil => exact ⟨k, [], rfl⟩
          | cons a as => exact ⟨a, as ++ [k], rfl⟩
        rw [has] at hr'walk ⊢
        rw [delWalk_cons hv key a as, hg]
        simp only [Except.map, hr'walk]
      · have hstep : jsGet (writeBack v key r') key = some r' := by
          match v, hv, hg with
          | .obj fields, _, hg =>
            simp only [writeBack, jsGet, objSet_find]
          | .arr items, _, hg =>
            by_cases hkey : key = "length"
            · subst hkey
              have hlen : jsGet (.arr items) "length" = some (.num (items.length : Rat)) := rfl
              rw [hlen] at hg
              injection hg with hchildval
              have hv2 : JsonValue.num (items.length : Rat) = r' := by
                rw [hchildval]
                exact (delWalk_ok_primitive _ (by rw [← hchildval]; rfl) hr'walk).symm
              rw [show writeBack (JsonValue.arr items) "length" r' = JsonValue.arr items from rfl,
                hlen, hv2]
            · cases hci : canonIndex key with
              | none =>
                exfalso
                have : jsGet (.arr items) key = none := by
                  simp [jsGet, if_neg hkey, hci]
                rw [this] at hg
                cases hg
              | some i =>
                have hgi : items.get? i = some child := by
                  have := hg
                  simp only [jsGet, if_neg hkey, hci] at this
                  exact this
                have hlt : i < items.length := get?_lt_length hgi
                simp only [writeBack, hci, jsGet, if_neg hkey]
                simpa using get?_set_lt items i r' hlt
          | .bool b, _, hg => cases hg
          | .num q, _, hg => cases hg
          | .str s, _, hg =>
            have hps : isScalarPrim (JsonValue.str s) = true := rfl
            have hprim : r' = child := delWalk_ok_primitive _ (jsGet_primitive hps hg) hr'walk
            rw [show writeBack (JsonValue.str s) key r' = JsonValue.str s from rfl, hg, hprim]
        have hwb : writeBack v key r' ≠ .null := by
          match v, hv with
          | .obj fields, _ => exact fun e => JsonValue.noConfusion e
          | .bool b, _ => exact fun e => JsonValue.noConfusion e
          | .num q, _ => exact fun e => JsonValue.noConfusion e
          | .str s, _ => exact fun e => JsonValue.noConfusion e
          | .arr items, _ =>
            cases hci : canonIndex key with
            | none => intro e; simp [writeBack, hci] at e
            | some i => intro e; simp [writeBack, hci] at e
        show getLoop (some (writeBack v key r')) (key :: rest) = some pr
        rw [getLoop_cons hwb key rest, hstep]
        exact hgr'

theorem spliceOne_nat (items : List JsonValue) (i : Nat) (h : i < items.length) :
    spliceOne items (i : Int) = items.take i ++ items.drop (i + 1) := by
  unfold spliceOne
  have h0 : ¬((i : Int) < 0) := by
    simp
  rw [if_neg h0]
  have h1 : (i : Int).toNat = i := Int.toNat_natCast i
  rw [h1]
  rw [min_eq_left (Nat.le_of_lt h)]

theorem jsDeleteProp_arr_canon {seg : String} {i : Nat} (hci : canonIndex seg = some i)
    (items : List JsonValue) (h : i < items.length) :
    jsDeleteProp (.arr items) seg = .ok (.arr (items.take i ++ items.drop (i + 1))) := by
  simp only [jsDeleteProp, canonIndex_parseIntJS hci]
  rw [spliceOne_nat items i h]

theorem removeKey_find_none (g : List (String × JsonValue)) (k : String) :
    (removeKey g k).find? (fun p => p.1 = k) = none := by
  induction g with
  | nil => rfl
  | cons hd tl ih =>
    obtain ⟨k1, v1⟩ := hd
    by_cases h : k1 = k
    · simp only [removeKey, if_pos h]
      exact ih
    · simp only [removeKey, if_neg h]
      rw [List.find?_cons_of_neg]
      · exact ih
      · simp [h]

theorem getValueByPath_append (p : List String) :
    ∀ (v w : JsonValue) (k : String), getValueByPath v p = some w → w ≠ .null →
      getValueByPath v (p ++ [k]) = jsGet w k := by
  induction p with
  | nil =>
    intro v w k h hw
    rw [getValueByPath, getLoop_nil] at h
    injection h with h'
    subst h'
    show getLoop (some v) [k] = jsGet v k
    rw [getLoop_cons hw k [], getLoop_nil]
  | cons key rest ih =>
    intro v w k h hw
    have hv : v ≠ .null := by
      intro e; subst e
      simp only [getValueByPath, getLoop] at h
      exact Option.noConfusion h
    rw [getValueByPath, getLoop_cons hv] at h
    show getLoop (some v) (key :: (rest ++ [k])) = jsGet w k
    rw [getLoop_cons hv]
    cases hg : jsGet v key with
    | none => rw [hg, getLoop_none] at h; cases h
    | some child =>
      rw [hg] at h
      exact ih child w k h hw

theorem get?_take_append_drop (i : Nat) :
    ∀ (items : List JsonValue), i < items.length →
      (items.take i ++ items.drop (i + 1)).get? i = items.get? (i + 1) := by
  induction i with
  | zero =>
    intro items h
    cases items with
    | nil => simp at h
    | cons a as => simp
  | succ n ih =>
    intro items h
    cases items with
    | nil => simp at h
    | cons a as =>
      simpa using ih as (by simpa using h)

/-- C6: delete semantics by parent kind.  For an array parent reached at
`p` and a canonical index `i < n` (the final segment is its decimal
form), `deleteValueByPath` splices: the result has length `n - 1` and the
element previously at `i+1` sits at `i`.  For an object parent, the key's
binding is removed entirely — reading the deleted path afterwards yields
`undefined`, not `null`. -/
theorem C6_delete_semantics :
    (∀ (root : JsonValue) (p : List String) (items : List JsonValue) (seg : String) (i : Nat),
        getValueByPath root p = some (.arr items) →
        canonIndex seg = some i → i < items.length →
        ∃ r, deleteValueByPath root (p ++ [seg]) = .ok r ∧
          getValueByPath r p = some (.arr (items.take i ++ items.drop (i + 1))) ∧
          (items.take i ++ items.drop (i + 1)).length = items.length - 1 ∧
          (items.take i ++ items.drop (i + 1)).get? i = items.get? (i + 1)) ∧
    (∀ (root : JsonValue) (p : List String) (g : List (String × JsonValue)) (k : String),
        getValueByPath root p = some (.obj g) →
        ∃ r, deleteValueByPath root (p ++ [k]) = .ok r ∧
          getValueByPath r p = some (.obj (removeKey g k)) ∧
          getValueByPath r (p ++ [k]) = none) := by
  constructor
  · intro root p items seg i hget hci hlt
    obtain ⟨r, hdel, hat⟩ := delete_at_parent p root (.arr items)
      (.arr (items.take i ++ items.drop (i + 1))) seg hget (jsDeleteProp_arr_canon hci items hlt)
    refine ⟨r, hdel, hat, ?_, get?_take_append_drop i items hlt⟩
    have htk : (items.take i).length = i := by
      rw [List.length_take]
      exact min_eq_left (Nat.le_of_lt hlt)
    rw [List.length_append, htk, List.length_drop]
    omega
  · intro root p g k hget
    obtain ⟨r, hdel, hat⟩ := delete_at_parent p root (.obj g) (.obj (removeKey g k)) k hget rfl
    refine ⟨r, hdel, hat, ?_⟩
    rw [getValueByPath_append p r (.obj (removeKey g k)) k hat (fun e => JsonValue.noConfusion e)]
    simp [jsGet, removeKey_find_none]

/-- Witness for `C6_delete_semantics` at concrete inputs: deleting index 1
of a three-element array at `xs` splices out the middle element, and
deleting a key of an object removes the binding. -/
theorem C6_delete_semantics_witness :
    (∃ r, deleteValueByPath (.obj [("xs", .arr [.num 7, .num 8, .num 9])]) (["xs"] ++ ["1"])
        = .ok r ∧
      getValueByPath r ["xs"]
        = some (.arr ([JsonValue.num 7, .num 8, .num 9].take 1
            ++ [JsonValue.num 7, .num 8, .num 9].drop 2))) ∧
    (∃ r, deleteValueByPath (.obj [("a", .num 1), ("b", .num 2)]) ([] ++ ["a"]) = .ok r ∧
      getValueByPath r ([] ++ ["a"]) = none) := by
  constructor
  · obtain ⟨r, h1, h2, -, -⟩ := C6_delete_semantics.1
      (.obj [("xs", .arr [.num 7, .num 8, .num 9])]) ["xs"]
      [.num 7, .num 8, .num 9] "1" 1 rfl rfl (by decide)
    exact ⟨r, h1, h2⟩
  · obtain ⟨r, h1, -, h3⟩ := C6_delete_semantics.2
      (.obj [("a", .num 1), ("b", .num 2)]) [] [("a", .num 1), ("b", .num 2)] "a" rfl
    exact ⟨r, h1, h3⟩

/-! ### C7: key rename = delete + set, renamed entry moves to the end -/

/-- Core frame lemma for `setValueByPath` at an object parent: if `p`
resolves to an object, setting `p ++ [k]` succeeds and replaces that
object by its `objSet` update. -/
theorem set_at_parent (p : List String) :
    ∀ (v : JsonValue) (g : List (String × JsonValue)) (k : String) (x : JsonValue),
      getValueByPath v p = some (.obj g) →
      ∃ r, setValueByPath v (p ++ [k]) x = .ok r ∧
        getValueByPath r p = some (.obj (objSet g k x)) := by
  induction p with
  | nil =>
    intro v g k x hget
    rw [getValueByPath, getLoop_nil] at hget
    injection hget with h'
    subst h'
    refine ⟨.obj (objSet g k x), rfl, ?_⟩
    rw [getValueByPath, getLoop_nil]
  | cons key rest ih =>
    intro v g k x hget
    have hv : v ≠ .null := by
      intro e; subst e
      simp only [getValueByPath, getLoop] at hget
      exact Option.noConfusion hget
    rw [getValueByPath, getLoop_cons hv key rest] at hget
    cases hg : jsGet v key with
    | none =>
      rw [hg, getLoop_none] at hget
      cases hget
    | some child =>
      rw [hg] at hget
      obtain ⟨r', hset', hget'⟩ := ih child g k x hget
      have hsw : setWalk child (rest ++ [k]) x = .ok r' := by
        cases rest with
        | nil => exact hset'
        | cons a as => exact hset'
      obtain ⟨a, as, has⟩ : ∃ a as, rest ++ [k] = a :: as := by
        cases rest with
        | nil => exact ⟨k, [], rfl⟩
        | cons a as => exact ⟨a, as ++ [k], rfl⟩
      rw [has] at hsw
      match v, hv, hg with
      | .obj fields, _, hg =>
        refine ⟨.obj (objSet fields key r'), ?_, ?_⟩
        · show setWalk (.obj fields) (key :: (rest ++ [k])) x
            = .ok (.obj (objSet fields key r'))
          rw [has]
          simp only [setWalk, hg, hsw, Except.map]
        · show getLoop (some (.obj (objSet fields key r'))) (key :: rest)
            = some (.obj (objSet g k x))
          rw [getLoop_cons (fun e => JsonValue.noConfusion e) key rest,
            show jsGet (.obj (objSet fields key r')) key = some r' from by
              simp only [jsGet, objSet_find]]
          exact hget'
      | .arr items, _, hg =>
        by_cases hkey : key = "length"
        · exfalso
          subst hkey
          have hlen : jsGet (.arr items) "length" = some (.num (items.length : Rat)) := rfl
          rw [hlen] at hg
          injection hg with hc
          have hobj : isScalarPrim (.obj g) = true := by
            refine getLoop_primitive rest ?_ hget
            rw [← hc]
            rfl
          cases hobj
        · cases hci : canonIndex key with
          | none =>
            exfalso
            have hnone : jsGet (.arr items) key = none := by
              simp [jsGet, if_neg hkey, hci]
            rw [hnone] at hg
            cases hg
          | some i =>
            have hgi : items.get? i = some child := by
              have := hg
              simp only [jsGet, if_neg hkey, hci] at this
              exact this
            have hlt : i < items.length := get?_lt_length hgi
            refine ⟨.arr (items.set i r'), ?_, ?_⟩
            · show setWalk (.arr items) (key :: (rest ++ [k])) x
                = .ok (.arr (items.set i r'))
              rw [has]
              simp only [setWalk, hci, hgi, hsw, Except.map]
            · show getLoop (some (.arr (items.set i r'))) (key :: rest)
                = some (.obj (objSet g k x))
              rw [getLoop_cons (fun e => JsonValue.noConfusion e) key rest,
                show jsGet (.arr (items.set i r')) key = some r' from by
                  simp only [jsGet, if_neg hkey, hci]
                  simpa using get?_set_lt items i r' hlt]
              exact hget'
      | .bool b, _, hg => cases hg
      | .num q, _, hg => cases hg
      | .str s, _, hg =>
        exfalso
        have hps : isScalarPrim (JsonValue.str s) = true := rfl
        have hobj : isScalarPrim (.obj g) = true :=
          getLoop_primitive rest (jsGet_primitive hps hg) hget
        cases hobj

theorem objSet_absent (g : List (String × JsonValue)) (k : String) (x : JsonValue)
    (h : g.find? (fun p => p.1 = k) = none) : objSet g k x = g ++ [(k, x)] := by
  induction g with
  | nil => rfl
  | cons hd tl ih =>
    obtain ⟨k1, v1⟩ := hd
    by_cases hk : k1 = k
    · rw [List.find?_cons_of_pos] at h
      · cases h
      · simp [hk]
    · rw [List.find?_cons_of_neg] at h
      · simp only [objSet, if_neg hk, List.cons_append, List.cons.injEq, true_and]
        exact ih h
      · simp [hk]

theorem removeKey_find_none_other (g : List (String × JsonValue)) (k j : String)
    (h : g.find? (fun p => p.1 = j) = none) :
    (removeKey g k).find? (fun p => p.1 = j) = none := by
  induction g with
  | nil => rfl
  | cons hd tl ih =>
    obtain ⟨k1, v1⟩ := hd
    by_cases hj : k1 = j
    · rw [List.find?_cons_of_pos] at h
      · cases h
      · simp [hj]
    · rw [List.find?_cons_of_neg] at h
      · by_cases hk : k1 = k
        · simp only [removeKey, if_pos hk]
          exact ih h
        · simp only [removeKey, if_neg hk]
          rw [List.find?_cons_of_neg]
          · exact ih h
          · simp [hj]
      · simp [hj]

/-- Key rename (part_001 `saveEdit` lines 300-327, ordinary-key branch):
guarded by `newKey && newKey !== oldKey`, it runs
`deleteJsonProperty(path)` and then
`addJsonProperty(parentPath, newKey, currentValue)`, where
`currentValue` is `node.value`, the value rendered at `path` (equal to
`getValueByPath` of the current content), and `addJsonProperty` is
`setValueByPath` at `parentPath ++ [newKey]`. -/
def renameKey (root : JsonValue) (path : List String) (newKey : String) :
    Except Unit JsonValue :=
  if newKey ≠ "" ∧ path.getLast? ≠ some newKey then
    match getValueByPath root path with
    | some currentValue =>
      (deleteValueByPath root path).bind
        (fun c => setValueByPath c (path.dropLast ++ [newKey]) currentValue)
    | none => .ok root
  else .ok root

/-- Claim C7 verbatim: for every object parent, renaming a key is delete
at the old path followed by set of the same value under the new key at
the same parent, so the renamed entry always lands at the end of the
parent's key order. -/
def ClaimC7 : Prop :=
  ∀ (root : JsonValue) (parentPath : List String) (g : List (String × JsonValue))
    (oldKey newKey : String) (v0 r : JsonValue),
    getValueByPath root parentPath = some (.obj g) →
    jsGet (.obj g) oldKey = some v0 →
    newKey ≠ "" → newKey ≠ oldKey →
    renameKey root (parentPath ++ [oldKey]) newKey = .ok r →
    getValueByPath r parentPath = some (.obj (removeKey g oldKey ++ [(newKey, v0)]))

/-- C7, amended: the renamed entry lands at the end of the parent's key
order provided the new key is not already one of the parent's other keys;
when it is, `setByPath` updates the existing binding in place instead
(see `C7_counterexample`). -/
theorem C7_rename_moves_to_end (root : JsonValue) (parentPath : List String)
    (g : List (String × JsonValue)) (oldKey newKey : String) (v0 : JsonValue)
    (hget : getValueByPath root parentPath = some (.obj g))
    (hold : jsGet (.obj g) oldKey = some v0)
    (hfresh : g.find? (fun p => p.1 = newKey) = none)
    (hne : newKey ≠ "") (hneq : newKey ≠ oldKey) :
    ∃ r, renameKey root (parentPath ++ [oldKey]) newKey = .ok r ∧
      getValueByPath r parentPath = some (.obj (removeKey g oldKey ++ [(newKey, v0)])) := by
  have hval : getValueByPath root (parentPath ++ [oldKey]) = some v0 := by
    rw [getValueByPath_append parentPath root (.obj g) oldKey hget
      (fun e => JsonValue.noConfusion e)]
    exact hold
  obtain ⟨c, hdel, hc⟩ := delete_at_parent parentPath root (.obj g)
    (.obj (removeKey g oldKey)) oldKey hget rfl
  obtain ⟨r, hset, hr⟩ := set_at_parent parentPath c (removeKey g oldKey) newKey v0 hc
  refine ⟨r, ?_, ?_⟩
  · unfold renameKey
    rw [if_pos ⟨hne, by
      rw [List.getLast?_concat]
      intro e
      injection e with e'
      exact hneq e'.symm⟩]
    rw [hval, hdel, List.dropLast_concat]
    simpa [Except.bind] using hset
  · rw [hr, objSet_absent (removeKey g oldKey) newKey v0
      (removeKey_find_none_other g oldKey newKey hfresh)]

/-- Witness for `C7_rename_moves_to_end`: renaming `"a"` to `"z"` in
`{a:1, b:2}` yields `{b:2, z:1}` in that key order. -/
theorem C7_rename_witness :
    ∃ r, renameKey (.obj [("a", .num 1), ("b", .num 2)]) ([] ++ ["a"]) "z" = .ok r ∧
      getValueByPath r []
        = some (.obj (removeKey [("a", JsonValue.num 1), ("b", JsonValue.num 2)] "a"
            ++ [("z", JsonValue.num 1)])) :=
  C7_rename_moves_to_end (.obj [("a", .num 1), ("b", .num 2)]) []
    [("a", .num 1), ("b", .num 2)] "a" "z" (.num 1) rfl rfl rfl
    (by decide) (by decide)

/-- Counterexample to claim C7 as stated: renaming `"a"` to `"b"` in
`{a:1, b:2, c:3}` produces `{b:1, c:3}` — the existing `"b"` binding is
updated in place, so the renamed entry is not at the end of the key
order. -/
theorem C7_counterexample : ¬ ClaimC7 := by
  intro h
  have hinst := h (.obj [("a", .num 1), ("b", .num 2), ("c", .num 3)]) []
    [("a", .num 1), ("b", .num 2), ("c", .num 3)] "a" "b" (.num 1)
    (.obj [("b", .num 1), ("c", .num 3)]) rfl rfl (by decide) (by decide) rfl
  rw [show getValueByPath (.obj [("b", JsonValue.num 1), ("c", JsonValue.num 3)]) []
      = some (.obj [("b", JsonValue.num 1), ("c", JsonValue.num 3)]) from rfl] at hinst
  rw [show removeKey [("a", JsonValue.num 1), ("b", JsonValue.num 2), ("c", JsonValue.num 3)] "a"
      = [("b", JsonValue.num 2), ("c", JsonValue.num 3)] from rfl] at hinst
  simp at hinst

/-! ### C5: edit-time literal coercion precedence -/

/-- `String.prototype.trim()`: whitespace removed from both ends. -/
def jsTrim (s : String) : String :=
  String.mk (((s.data.dropWhile isJsWs).reverse.dropWhile isJsWs).reverse)

/-- `\d+(\.\d+)?` anchored at both ends: a nonempty digit run, optionally
followed by a dot and a nonempty digit run, and nothing else. -/
def digitsThenOptFrac (cs : List Char) : Bool :=
  let intPart := cs.takeWhile Char.isDigit
  let rest := cs.drop intPart.length
  if intPart.isEmpty then false
  else
    match rest with
    | [] => true
    | c :: frac => c = '.' && !frac.isEmpty && frac.all Char.isDigit

/-- The test `/^-?\d+(\.\d+)?$/.test(t)` of `saveEdit`. -/
def matchesNumRe (t : String) : Bool :=
  match t.data with
  | [] => false
  | c :: cs => if c = '-' then digitsThenOptFrac cs else digitsThenOptFrac (c :: cs)

/-- `Number(t)` on a string matching the regexp above: integer part plus
scaled fraction, with the optional sign. -/
def parseNumRe (t : String) : Rat :=
  let signed : Rat × List Char :=
    match t.data with
    | c :: cs' => if c = '-' then (-1, cs') else (1, t.data)
    | [] => (1, [])
  let intPart := signed.2.takeWhile Char.isDigit
  let rest := signed.2.drop intPart.length
  let fracDigits : List Char :=
    match rest with
    | _ :: frac => frac
    | [] => []
  signed.1 * ((digitsToNat intPart : Rat)
    + (digitsToNat fracDigits : Rat) / ((10 : Rat) ^ fracDigits.length))

/-- `t.startsWith('"')`. -/
def startsWithQuote (t : String) : Bool := t.data.head? == some '"'

/-- `t.endsWith('"')`. -/
def endsWithQuote (t : String) : Bool := t.data.getLast? == some '"'

/-- `t.slice(1, -1)`: drop the first and last characters. -/
def sliceInner (t : String) : String := String.mk t.data.tail.dropLast

/-- Value coercion of `saveEdit` (part_001 lines 330-344): the edited
text is **trimmed**, then classified by first match: exactly `"null"`;
exactly `"true"`/`"false"`; the anchored number regexp (parsed with
`Number`); a leading and a trailing double-quote character (stripped with
`slice(1, -1)`); otherwise the trimmed text itself as a string. -/
def coerceEditValue (input : String) : JsonValue :=
  let t := jsTrim input
  if t = "null" then .null
  else if t = "true" then .bool true
  else if t = "false" then .bool false
  else if matchesNumRe t then .num (parseNumRe t)
  else if startsWithQuote t && endsWithQuote t then .str (sliceInner t)
  else .str t

/-- Claim C5's coercion, following the claim's words: the **raw** text is
classified — exactly `"null"` → Null; exactly `"true"`/`"false"` → Bool;
a full regexp match → Number; text wrapped in a literal **pair** of
double quotes → the quotes stripped; anything else → the raw text,
unmodified. -/
def claimC5Coerce (input : String) : JsonValue :=
  if input = "null" then .null
  else if input = "true" then .bool true
  else if input = "false" then .bool false
  else if matchesNumRe input then .num (parseNumRe input)
  else if 2 ≤ input.data.length && startsWithQuote input && endsWithQuote input then
    .str (sliceInner input)
  else .str input

/-- Claim C5 verbatim: the code's coercion equals the raw-text
classification for every input. -/
def ClaimC5 : Prop := ∀ s, coerceEditValue s = claimC5Coerce s

/-- Counterexample to claim C5 as stated: the code trims first, so the
input `" hello"` becomes the string `"hello"`, while the claim's
raw-text reading requires the unmodified string `" hello"`. -/
theorem C5_counterexample : ¬ ClaimC5 := by
  intro h
  have hinst := h " hello"
  rw [show coerceEditValue " hello" = .str "hello" from rfl,
    show claimC5Coerce " hello" = .str " hello" from rfl] at hinst
  injection hinst with h'
  exact absurd h' (by decide)

/-- C5, amended: the coercion applies to the **trimmed** input, first
match wins in the claimed order, and the quote rule fires whenever the
trimmed text both starts and ends with a double quote (hence a sole `"`
character is stripped to the empty string); the final fallback returns
the trimmed text. -/
theorem C5_coercion_precedence (s : String) :
    (jsTrim s = "null" → coerceEditValue s = .null) ∧
    (jsTrim s = "true" → coerceEditValue s = .bool true) ∧
    (jsTrim s = "false" → coerceEditValue s = .bool false) ∧
    (jsTrim s ≠ "null" → jsTrim s ≠ "true" → jsTrim s ≠ "false" →
      matchesNumRe (jsTrim s) = true →
      coerceEditValue s = .num (parseNumRe (jsTrim s))) ∧
    (jsTrim s ≠ "null" → jsTrim s ≠ "true" → jsTrim s ≠ "false" →
      matchesNumRe (jsTrim s) = false →
      (startsWithQuote (jsTrim s) && endsWithQuote (jsTrim s)) = true →
      coerceEditValue s = .str (sliceInner (jsTrim s))) ∧
    (jsTrim s ≠ "null" → jsTrim s ≠ "true" → jsTrim s ≠ "false" →
      matchesNumRe (jsTrim s) = false →
      (startsWithQuote (jsTrim s) && endsWithQuote (jsTrim s)) = false →
      coerceEditValue s = .str (jsTrim s)) := by
  refine ⟨?_, ?_, ?_, ?_, ?_, ?_⟩
  · intro h; simp [coerceEditValue, h]
  · intro h; simp [coerceEditValue, h]
  · intro h; simp [coerceEditValue, h]
  · intro h1 h2 h3 h4
    simp [coerceEditValue, h1, h2, h3, h4]
  · intro h1 h2 h3 h4 h5
    simp [coerceEditValue, h1, h2, h3, h4, h5]
  · intro h1 h2 h3 h4 h5
    simp [coerceEditValue, h1, h2, h3, h4, h5]

/-- Witness for `C5_coercion_precedence` at concrete inputs: `"42"`
parses as the number 42 and a quoted numeral stays a string. -/
theorem C5_coercion_witness :
    coerceEditValue "42" = .num (parseNumRe (jsTrim "42")) ∧
    coerceEditValue "\"123\"" = .str (sliceInner (jsTrim "\"123\"")) :=
  ⟨(C5_coercion_precedence "42").2.2.2.1 (by decide) (by decide) (by decide) rfl,
   (C5_coercion_precedence "\"123\"").2.2.2.2.1 (by decide) (by decide) (by decide)
     rfl rfl⟩

/-! ### C3: plugin reorder key semantics -/

/-- JavaScript `ToBoolean` on JSON values (`NaN` does not arise in the
model). -/
def truthy : JsonValue → Bool
  | .null => false
  | .bool b => b
  | .num q => decide (q ≠ 0)
  | .str s => decide (s ≠ "")
  | .obj _ => true
  | .arr _ => true

/-- One iteration of the reorder loop of `updatePluginsOrder` (part_005
lines 1154-1158): `if (oldPlugins[name]) newPlugins[name] =
oldPlugins[name];` — note the truthiness test, not an existence test. -/
def reorderStep (old : JsonValue) (acc : List (String × JsonValue)) (name : String) :
    List (String × JsonValue) :=
  match jsGet old name with
  | some v => if truthy v then objSet acc name v else acc
  | none => acc

/-- Reorder core of `updatePluginsOrder` (part_005 lines 1150-1158):
`newOrder.forEach(...)` over an initially empty `newPlugins`. -/
def reorderPlugins (oldPlugins : JsonValue) (newOrder : List String) :
    List (String × JsonValue) :=
  newOrder.foldl (reorderStep oldPlugins) []

/-- Selection predicate describing which order entries survive: a key of
the old plugins map bound to a truthy value. -/
def reorderSelect (old : JsonValue) (k : String) : Option (String × JsonValue) :=
  match jsGet old k with
  | some v => if truthy v then some (k, v) else none
  | none => none

/-- Claim C3 verbatim: the new plugins object binds exactly the elements
of `newOrder` that are keys of the old plugins object, in `newOrder`'s
order, each to its prior value. -/
def ClaimC3 : Prop :=
  ∀ (old : List (String × JsonValue)) (newOrder : List String),
    reorderPlugins (.obj old) newOrder
      = newOrder.filterMap (fun k => (jsGet (.obj old) k).map (fun v => (k, v)))

/-- Counterexample to claim C3 as stated: a plugin bound to a falsy value
(`{a: null}`) is a key of the old plugins object, yet `newOrder = ["a"]`
yields the empty object because the source tests `oldPlugins[name]` for
truthiness, not for presence. -/
theorem C3_counterexample : ¬ ClaimC3 := by
  intro h
  have hinst := h [("a", .null)] ["a"]
  rw [show reorderPlugins (.obj [("a", JsonValue.null)]) ["a"] = [] from rfl,
    show (["a"].filterMap fun k =>
        (jsGet (.obj [("a", JsonValue.null)]) k).map (fun v => (k, v)))
      = [("a", JsonValue.null)] from rfl] at hinst
  cases hinst

theorem find?_eq_none_append {α : Type _} {p : α → Bool} {l1 l2 : List α}
    (h1 : l1.find? p = none) (h2 : l2.find? p = none) : (l1 ++ l2).find? p = none := by
  induction l1 with
  | nil => exact h2
  | cons hd tl ih =>
    cases hp : p hd with
    | true => rw [List.find?_cons_of_pos _ hp] at h1; cases h1
    | false =>
      rw [List.find?_cons_of_neg _ (by simp [hp])] at h1
      rw [List.cons_append, List.find?_cons_of_neg _ (by simp [hp])]
      exact ih h1

theorem reorderStep_none {old : JsonValue} {name : String}
    (h : jsGet old name = none) (acc : List (String × JsonValue)) :
    reorderStep old acc name = acc := by
  simp [reorderStep, h]

theorem reorderStep_falsy {old v : JsonValue} {name : String}
    (h : jsGet old name = some v) (ht : truthy v = false)
    (acc : List (String × JsonValue)) :
    reorderStep old acc name = acc := by
  simp [reorderStep, h, ht]

theorem reorderStep_truthy {old v : JsonValue} {name : String}
    (h : jsGet old name = some v) (ht : truthy v = true)
    (acc : List (String × JsonValue)) :
    reorderStep old acc name = objSet acc name v := by
  simp [reorderStep, h, ht]

theorem reorderSelect_none {old : JsonValue} {name : String}
    (h : jsGet old name = none) : reorderSelect old name = none := by
  simp [reorderSelect, h]

theorem reorderSelect_falsy {old v : JsonValue} {name : String}
    (h : jsGet old name = some v) (ht : truthy v = false) :
    reorderSelect old name = none := by
  simp [reorderSelect, h, ht]

theorem reorderSelect_truthy {old v : JsonValue} {name : String}
    (h : jsGet old name = some v) (ht : truthy v = true) :
    reorderSelect old name = some (name, v) := by
  simp [reorderSelect, h, ht]

theorem reorderPlugins_go (old : JsonValue) (order : List String) :
    ∀ acc : List (String × JsonValue),
      (∀ k ∈ order, acc.find? (fun p => p.1 = k) = none) →
      order.Nodup →
      order.foldl (reorderStep old) acc = acc ++ order.filterMap (reorderSelect old) := by
  induction order with
  | nil => intro acc _ _; simp
  | cons name rest ih =>
    intro acc hfr hnd
    rw [List.foldl_cons, List.filterMap_cons]
    have hndr : rest.Nodup := (List.nodup_cons.mp hnd).2
    have hnm : name ∉ rest := (List.nodup_cons.mp hnd).1
    cases hj : jsGet old name with
    | none =>
      rw [reorderStep_none hj acc, reorderSelect_none hj,
        ih acc (fun k hk => hfr k (List.mem_cons_of_mem _ hk)) hndr]
    | some v =>
      cases ht : truthy v with
      | false =>
        rw [reorderStep_falsy hj ht acc, reorderSelect_falsy hj ht,
          ih acc (fun k hk => hfr k (List.mem_cons_of_mem _ hk)) hndr]
      | true =>
        rw [reorderStep_truthy hj ht acc, reorderSelect_truthy hj ht,
          objSet_absent acc name v (hfr name (List.mem_cons_self name rest)),
          ih (acc ++ [(name, v)])
            (fun k hk => by
              refine find?_eq_none_append (hfr k (List.mem_cons_of_mem _ hk)) ?_
              rw [List.find?_cons_of_neg, List.find?_nil]
              simp only [decide_eq_true_eq]
              intro e
              exact hnm (e ▸ hk))
            hndr,
          List.append_assoc]
        rfl

/-- C3, amended: for a duplicate-free `newOrder`, the new plugins object
binds exactly the elements of `newOrder` that are keys of the old plugins
object **with truthy values**, in `newOrder`'s order, each to its prior
value; keys omitted from `newOrder`, stale names, and keys bound to falsy
values (`null`, `false`, `0`, `""`) are silently dropped without
erroring. -/
theorem C3_reorder_semantics (old : List (String × JsonValue)) (order : List String)
    (hnd : order.Nodup) :
    reorderPlugins (.obj old) order = order.filterMap (reorderSelect (.obj old)) := by
  unfold reorderPlugins
  rw [reorderPlugins_go (.obj old) order [] (fun k _ => rfl) hnd]
  rfl

/-- Witness for `C3_reorder_semantics`: reordering
`{a: {x: 1}, b: {}}` by `["b","c","a"]` swaps the surviving keys, keeps
their values, and silently prunes the stale name `"c"`. -/
theorem C3_reorder_witness :
    reorderPlugins (.obj [("a", .obj [("x", .num 1)]), ("b", .obj [])]) ["b", "c", "a"]
      = (["b", "c", "a"].filterMap
          (reorderSelect (.obj [("a", .obj [("x", .num 1)]), ("b", .obj [])]))) :=
  C3_reorder_semantics [("a", .obj [("x", .num 1)]), ("b", .obj [])] ["b", "c", "a"]
    (by decide)

/-! ### The node tree and the editor store (part_005) -/

/-- One container-slot entry of a `parentDisplayConfig`
(`{containerIndex, childPath, childKey, childValue, displayText}`). -/
structure SelectedChild where
  containerIndex : Nat
  childPath : List String
  childKey : String
  childValue : JsonValue
  displayText : String

mutual
/-- `JsonNode` (shared/types): `key`, `value`, `type`, `depth`,
`expanded`, `path`, `children`, and the optional `parentDisplayConfig`
(modelled by its single `selectedChildren` list). -/
inductive JsonNode where
  | mk (key : String) (value : JsonValue) (ty : String) (depth : Nat)
      (expanded : Bool) (path : List String) (children : JsonChildren)
      (parentDisplayConfig : Option (List SelectedChild)) : JsonNode

/-- `children` of a `JsonNode`: absent for scalars, a key→node map for
objects (insertion-ordered), an index-ordered list for arrays. -/
inductive JsonChildren where
  | noneC : JsonChildren
  | objC : List (String × JsonNode) → JsonChildren
  | arrC : List JsonNode → JsonChildren
end

def JsonNode.key : JsonNode → String
  | .mk k _ _ _ _ _ _ _ => k

def JsonNode.value : JsonNode → JsonValue
  | .mk _ v _ _ _ _ _ _ => v

def JsonNode.ty : JsonNode → String
  | .mk _ _ t _ _ _ _ _ => t

def JsonNode.depth : JsonNode → Nat
  | .mk _ _ _ d _ _ _ _ => d

def JsonNode.path : JsonNode → List String
  | .mk _ _ _ _ _ p _ _ => p

def JsonNode.children : JsonNode → JsonChildren
  | .mk _ _ _ _ _ _ c _ => c

def JsonNode.parentDisplayConfig : JsonNode → Option (List SelectedChild)
  | .mk _ _ _ _ _ _ _ pc => pc

/-- Decimal representation of an array index (JavaScript
`index.toString()`), written with structural fuel so that it evaluates
inside the kernel. -/
def natReprAux : Nat → Nat → List Char
  | 0, _ => []
  | fuel + 1, n =>
    if n < 10 then [Char.ofNat ('0'.toNat + n)]
    else natReprAux fuel (n / 10) ++ [Char.ofNat ('0'.toNat + n % 10)]

/-- Decimal representation of an array index. -/
def natRepr (n : Nat) : String := String.mk (natReprAux (n + 1) n)

/-- `getJsonValueType` (part_005 lines 208-216): structural, mutually
exclusive (`null` before the object/array tests, never coerced). -/
def getJsonValueType : JsonValue → String
  | .null => "null"
  | .arr _ => "array"
  | .obj _ => "object"
  | .str _ => "string"
  | .num _ => "number"
  | .bool _ => "boolean"

mutual
/-- `createJsonNode(obj, key, path)` (part_005 lines 178-203): builds the
typed node; object children keep entry order, array children are indexed
by their decimal position; `depth = path.length`, `expanded = false`, no
`parentDisplayConfig`. -/
def createJsonNode (v : JsonValue) (key : String) (path : List String) : JsonNode :=
  let children : JsonChildren :=
    match v with
    | .obj fields => .objC (createFields fields path)
    | .arr items => .arrC (createItems items path 0)
    | _ => .noneC
  .mk key v (getJsonValueType v) path.length false path children none
termination_by sizeOf v
decreasing_by all_goals simp_wf <;> omega

def createFields (fields : List (String × JsonValue)) (path : List String) :
    List (String × JsonNode) :=
  match fields with
  | [] => []
  | (k, w) :: rest => (k, createJsonNode w k (path ++ [k])) :: createFields rest path
termination_by sizeOf fields
decreasing_by all_goals simp_wf <;> omega

def createItems (items : List JsonValue) (path : List String) (i : Nat) : List JsonNode :=
  match items with
  | [] => []
  | w :: rest => createJsonNode w (natRepr i) (path ++ [natRepr i]) :: createItems rest path (i + 1)
termination_by sizeOf items
decreasing_by all_goals simp_wf <;> omega
end

mutual
/-- `preserveParentDisplayConfig(oldNode, newNode)` of `updatePluginsOrder`
(part_005 lines 1184-1211): when the structural paths agree and the old
node carries a (truthy) config object, it is copied onto the new node;
children are then re-walked pairwise — arrays by index, object maps by
key, a missing old counterpart recursing with `null`. -/
def preserveParentDisplayConfig (oldNode : Option JsonNode) (newNode : JsonNode) : JsonNode :=
  match oldNode with
  | none => newNode
  | some o =>
    match newNode with
    | .mk k v t d e p c pc =>
      let pc1 : Option (List SelectedChild) :=
        if o.path = p ∧ o.parentDisplayConfig.isSome = true then o.parentDisplayConfig else pc
      match c, o.children with
      | .arrC newCs, .arrC oldCs => .mk k v t d e p (.arrC (preserveItems oldCs newCs 0)) pc1
      | .objC newCs, .objC oldCs => .mk k v t d e p (.objC (preserveEntries oldCs newCs)) pc1
      | _, _ => .mk k v t d e p c pc1
termination_by sizeOf newNode
decreasing_by all_goals simp_wf <;> omega

def preserveItems (oldCs : List JsonNode) (newCs : List JsonNode) (i : Nat) : List JsonNode :=
  match newCs with
  | [] => []
  | cNode :: rest =>
    preserveParentDisplayConfig (oldCs.get? i) cNode :: preserveItems oldCs rest (i + 1)
termination_by sizeOf newCs
decreasing_by all_goals simp_wf <;> omega

def preserveEntries (oldCs : List (String × JsonNode)) (newCs : List (String × JsonNode)) :
    List (String × JsonNode) :=
  match newCs with
  | [] => []
  | (k, cNode) :: rest =>
    (k, preserveParentDisplayConfig ((oldCs.find? (fun q => q.1 = k)).map (fun q => q.2)) cNode)
      :: preserveEntries oldCs rest
termination_by sizeOf newCs
decreasing_by all_goals simp_wf <;> omega
end

/-- Own enumerable fields produced by an object spread `{...v}`: an
object's fields; an array's or string's index-keyed elements; nothing
for primitives and `null`/`undefined`. -/
def spreadToFields : JsonValue → List (String × JsonValue)
  | .obj fields => fields
  | .arr items => spreadIdx items 0
  | .str s => spreadChars s.data 0
  | _ => []
where
  spreadIdx : List JsonValue → Nat → List (String × JsonValue)
    | [], _ => []
    | v :: rest, i => (natRepr i, v) :: spreadIdx rest (i + 1)
  spreadChars : List Char → Nat → List (String × JsonValue)
    | [], _ => []
    | c :: rest, i => (natRepr i, .str (String.singleton c)) :: spreadChars rest (i + 1)

/-- `{...v, key: x}`: spread the old value's own fields, then bind `key`
(updating in place when already present). -/
def jsSpreadSet (v : JsonValue) (key : String) (x : JsonValue) : JsonValue :=
  .obj (objSet (spreadToFields v) key x)

/-- The `globalSelectedContainerType` record. -/
structure GlobalContainerType where
  containerIndex : Nat
  childKey : String
  childType : String

/-- The slice of the zustand editor store that the verified actions
read or write (part_005): the three content copies (JavaScript `null`
is `JsonValue.null`), the two node trees (`null` is `none`), the
modified flag and the global container selection. -/
structure EditorState where
  jsonContent : JsonValue
  originalJsonContent : JsonValue
  displayJsonContent : JsonValue
  jsonData : Option JsonNode
  displayJsonData : Option JsonNode
  isModified : Bool
  globalSelectedContainerType : Option GlobalContainerType

/-- `updatePluginsOrder(newOrder)` (part_005 lines 1144-1229): guarded by
`if (!jsonContent || !jsonContent.plugins) return;`, it rebuilds the
plugins object in `newOrder` order and installs it in **all three**
content copies (`jsonContent`, `originalJsonContent`,
`displayJsonContent`) via object spread, marks the document modified, and
rebuilds both node trees while preserving existing
`parentDisplayConfig`s by structural path.  (`createJsonNode` is total in
the model, so the source's catch-fallback never runs.) -/
def updatePluginsOrder (s : EditorState) (newOrder : List String) : EditorState :=
  if truthy s.jsonContent = false then s
  else
    match jsGet s.jsonContent "plugins" with
    | none => s
    | some pl =>
      if truthy pl = false then s
      else
        let newPlugins := JsonValue.obj (reorderPlugins pl newOrder)
        let updatedJsonContent := jsSpreadSet s.jsonContent "plugins" newPlugins
        let updatedOriginalContent := jsSpreadSet s.originalJsonContent "plugins" newPlugins
        let updatedDisplayContent := jsSpreadSet s.displayJsonContent "plugins" newPlugins
        { jsonContent := updatedJsonContent
          originalJsonContent := updatedOriginalContent
          displayJsonContent := updatedDisplayContent
          isModified := true
          jsonData := some (preserveParentDisplayConfig s.jsonData
            (createJsonNode updatedJsonContent "root" []))
          displayJsonData := some (preserveParentDisplayConfig s.displayJsonData
            (createJsonNode updatedDisplayContent "root" []))
          globalSelectedContainerType := s.globalSelectedContainerType }

/-! ### C4: original/display independence under reordering -/

/-- A loaded document whose three content copies hold
`{plugins: {a: {x:1}, b: {y:2}}}`. -/
def reorderFailingState : EditorState :=
  { jsonContent :=
      .obj [("plugins", .obj [("a", .obj [("x", .num 1)]), ("b", .obj [("y", .num 2)])])]
    originalJsonContent :=
      .obj [("plugins", .obj [("a", .obj [("x", .num 1)]), ("b", .obj [("y", .num 2)])])]
    displayJsonContent :=
      .obj [("plugins", .obj [("a", .obj [("x", .num 1)]), ("b", .obj [("y", .num 2)])])]
    jsonData := none
    displayJsonData := none
    isModified := false
    globalSelectedContainerType := none }

/-- C4 evidence: reordering the plugins of `reorderFailingState` by
`["b","a"]` **rewrites `originalJsonContent`** — its plugins key order
becomes `b, a` and the field no longer equals its pre-call value.  This
contradicts the claim (and the store's own field comment that the
original copy is never modified by drag reordering): `updatePluginsOrder`
deliberately installs the reordered plugins object into all three
content copies. -/
theorem C4_code_divergence :
    (updatePluginsOrder reorderFailingState ["b", "a"]).originalJsonContent
      = .obj [("plugins", .obj [("b", .obj [("y", .num 2)]), ("a", .obj [("x", .num 1)])])] ∧
    (updatePluginsOrder reorderFailingState ["b", "a"]).originalJsonContent
      ≠ reorderFailingState.originalJsonContent := by
  constructor
  · rfl
  · rw [show (updatePluginsOrder reorderFailingState ["b", "a"]).originalJsonContent
      = .obj [("plugins", .obj [("b", .obj [("y", .num 2)]), ("a", .obj [("x", .num 1)])])]
      from rfl]
    simp [reorderFailingState]

/-! ### C10: implicit guard on the reorder precondition -/

/-- C10: if the current document content is `null` or has no `plugins`
field, `updatePluginsOrder` returns with the entire store state — the
three content copies, both node trees, and the rest — exactly as it was:
a silent no-op, not an exception. -/
theorem C10_reorder_guard_noop (s : EditorState) (newOrder : List String)
    (h : s.jsonContent = .null ∨ jsGet s.jsonContent "plugins" = none) :
    updatePluginsOrder s newOrder = s := by
  rcases h with h | h
  · unfold updatePluginsOrder
    rw [h]
    rfl
  · unfold updatePluginsOrder
    rw [h]
    cases truthy s.jsonContent <;> rfl

/-- Witness for `C10_reorder_guard_noop`: a store holding `null` content
and a store whose content lacks `plugins` are both left untouched. -/
theorem C10_reorder_guard_witness :
    updatePluginsOrder
      { jsonContent := .null, originalJsonContent := .null, displayJsonContent := .null,
        jsonData := none, displayJsonData := none, isModified := false,
        globalSelectedContainerType := none } ["a"]
      = { jsonContent := .null, originalJsonContent := .null, displayJsonContent := .null,
          jsonData := none, displayJsonData := none, isModified := false,
          globalSelectedContainerType := none } ∧
    updatePluginsOrder
      { jsonContent := .obj [("other", .num 1)], originalJsonContent := .null,
        displayJsonContent := .null, jsonData := none, displayJsonData := none,
        isModified := false, globalSelectedContainerType := none } ["a"]
      = { jsonContent := .obj [("other", .num 1)], originalJsonContent := .null,
          displayJsonContent := .null, jsonData := none, displayJsonData := none,
          isModified := false, globalSelectedContainerType := none } :=
  ⟨C10_reorder_guard_noop _ ["a"] (Or.inl rfl),
   C10_reorder_guard_noop _ ["a"] (Or.inr rfl)⟩

/-! ### C9: preset save validation and atomicity -/

/-- `PresetConfig` (src/types/preset): the persisted preset payload. -/
structure PresetConfig where
  id : String
  name : String
  description : String
  pluginOrder : List String
  expandedNodes : Option (List (String × Bool))
  parentDisplayConfigs : Option (List (String × List SelectedChild))
  createdAt : Nat
  updatedAt : Nat
  fileHash : Option String

/-- The `{success, message, data?}` envelope of preset operations. -/
structure PresetOperationResult where
  success : Bool
  message : String
  data : Option PresetConfig

/-- `savePreset` (src/utils/presetManager.ts lines 62-119).  The stored
preset list is the manager's state; the generated id and the `Date.now()`
timestamp enter as parameters.  Validation happens before any mutation:
empty trimmed name, empty plugin order, and duplicate name each return a
failure with a human-readable reason and leave the list untouched;
otherwise the new preset is appended. -/
def savePreset (presets : List PresetConfig) (genId : String) (now : Nat)
    (name description : String) (pluginOrder : List String)
    (fileHash : Option String)
    (expandedNodes : Option (List (String × Bool)))
    (parentDisplayConfigs : Option (List (String × List SelectedChild))) :
    PresetOperationResult × List PresetConfig :=
  if jsTrim name = "" then
    ({ success := false, message := "预设名称不能为空", data := none }, presets)
  else if pluginOrder.isEmpty then
    ({ success := false, message := "插件顺序不能为空", data := none }, presets)
  else
    match presets.find? (fun p => p.name = jsTrim name) with
    | some _ =>
      ({ success := false, message := "预设名称已存在，请使用其他名称", data := none }, presets)
    | none =>
      let newPreset : PresetConfig :=
        { id := genId, name := jsTrim name, description := jsTrim description,
          pluginOrder := pluginOrder, expandedNodes := expandedNodes,
          parentDisplayConfigs := parentDisplayConfigs, createdAt := now,
          updatedAt := now, fileHash := fileHash }
      ({ success := true, message := "预设保存成功", data := some newPreset },
        presets ++ [newPreset])

/-- C9: `savePreset` rejects an empty trimmed name, an empty plugin
order, or a duplicate name with `success = false` and a nonempty
human-readable message, leaving the stored preset list unchanged
(rejection precedes any mutation); in every other case it appends exactly
one new preset. -/
theorem C9_savePreset_validation (presets : List PresetConfig) (genId : String) (now : Nat)
    (name description : String) (pluginOrder : List String) (fileHash : Option String)
    (expandedNodes : Option (List (String × Bool)))
    (parentDisplayConfigs : Option (List (String × List SelectedChild))) :
    ((jsTrim name = "" ∨ pluginOrder = [] ∨ ∃ p ∈ presets, p.name = jsTrim name) →
      (savePreset presets genId now name description pluginOrder fileHash
          expandedNodes parentDisplayConfigs).1.success = false ∧
      (savePreset presets genId now name description pluginOrder fileHash
          expandedNodes parentDisplayConfigs).1.message ≠ "" ∧
      (savePreset presets genId now name description pluginOrder fileHash
          expandedNodes parentDisplayConfigs).2 = presets) ∧
    ((jsTrim name ≠ "" ∧ pluginOrder ≠ [] ∧ ¬ ∃ p ∈ presets, p.name = jsTrim name) →
      (savePreset presets genId now name description pluginOrder fileHash
          expandedNodes parentDisplayConfigs).1.success = true ∧
      (savePreset presets genId now name description pluginOrder fileHash
          expandedNodes parentDisplayConfigs).2
        = presets ++
          [({ id := genId,
              name := jsTrim name,
              description := jsTrim description,
              pluginOrder := pluginOrder,
              expandedNodes := expandedNodes,
              parentDisplayConfigs := parentDisplayConfigs,
              createdAt := now,
              updatedAt := now,
              fileHash := fileHash } : PresetConfig)]) := by
  constructor
  · intro h
    rcases h with h | h | h
    · simp [savePreset, h]
    · subst h
      unfold savePreset
      by_cases hn : jsTrim name = ""
      · simp [hn]
      · simp [hn, List.isEmpty]
    · obtain ⟨p, hp, hpn⟩ := h
      unfold savePreset
      by_cases hn : jsTrim name = ""
      · simp [hn]
      · rw [if_neg hn]
        by_cases ho : pluginOrder.isEmpty
        · simp [ho]
        · rw [if_neg ho]
          cases hf : presets.find? (fun q => q.name = jsTrim name) with
          | none =>
            exfalso
            rw [List.find?_eq_none] at hf
            exact absurd (by simpa using hpn) (by simpa using hf p hp)
          | some q => simp
  · rintro ⟨hn, ho, hd⟩
    unfold savePreset
    rw [if_neg hn, if_neg (by simpa [List.isEmpty_iff] using ho)]
    cases hf : presets.find? (fun q => q.name = jsTrim name) with
    | some q =>
      exfalso
      have := List.find?_some hf
      have hmem := List.mem_of_find?_eq_some hf
      exact hd ⟨q, hmem, by simpa using this⟩
    | none => simp

/-- Witness for `C9_savePreset_validation`: a whitespace-only name is
rejected without touching the (empty) stored list, and a valid preset is
appended. -/
theorem C9_savePreset_witness :
    ((savePreset [] "preset_1" 0 "  " "" ["a"] none none none).1.success = false ∧
      (savePreset [] "preset_1" 0 "  " "" ["a"] none none none).2 = []) ∧
    ((savePreset [] "preset_1" 0 "p" "" ["a"] none none none).1.success = true ∧
      (savePreset [] "preset_1" 0 "p" "" ["a"] none none none).2
        = [({ id := "preset_1",
              name := jsTrim "p",
              description := jsTrim "",
              pluginOrder := ["a"],
              expandedNodes := none,
              parentDisplayConfigs := none,
              createdAt := 0,
              updatedAt := 0,
              fileHash := none } : PresetConfig)]) := by
  constructor
  · have h := (C9_savePreset_validation [] "preset_1" 0 "  " "" ["a"] none none none).1
      (Or.inl rfl)
    exact ⟨h.1, h.2.2⟩
  · have h := (C9_savePreset_validation [] "preset_1" 0 "p" "" ["a"] none none none).2
      ⟨by decide, by simp, by simp⟩
    exact h

/-! ### C8: plugins-only cross-sibling sync with best-effort fallback -/

/-- The `childData` argument of `setParentDisplayConfig`
(`{childPath, childKey, childValue, displayText}`; the TypeScript
signature types `childPath` as `string[]`, so the defensive
string-splitting branches of the source are dead code). -/
structure ChildData where
  childPath : List String
  childKey : String
  childValue : JsonValue
  displayText : String

/-- Store or replace the entry for a container index in a
`selectedChildren` list (`findIndex` + in-place assignment, else
`push`). -/
def setSlot : List SelectedChild → SelectedChild → List SelectedChild
  | [], e => [e]
  | item :: rest, e =>
    if item.containerIndex = e.containerIndex then e :: rest
    else item :: setSlot rest e

/-- Observer: the entry stored for a container index. -/
def findSlot (sc : List SelectedChild) (ci : Nat) : Option SelectedChild :=
  sc.find? (fun e => e.containerIndex = ci)

/-- JSON string escaping for the characters these sources produce
(control characters other than tab/newline/return are not modelled). -/
def escapeJsonChar (c : Char) : String :=
  if c = '"' then "\\\""
  else if c = '\\' then "\\\\"
  else if c = '\n' then "\\n"
  else if c = '\t' then "\\t"
  else if c = '\r' then "\\r"
  else String.singleton c

def escapeJson (s : String) : String :=
  s.data.foldl (fun acc c => acc ++ escapeJsonChar c) ""

/-- Fractional digits of a rational in decimal, with fuel (the numbers in
scope come from finite decimal literals, so the expansion terminates). -/
def fracDigitsAux : Nat → Rat → String
  | 0, _ => ""
  | fuel + 1, r =>
    if r = 0 then ""
    else
      let d : Int := (r * 10).floor
      String.singleton (Char.ofNat ('0'.toNat + d.toNat)) ++ fracDigitsAux fuel (r * 10 - d)

/-- Decimal rendering of a JavaScript number (the shortest-round-trip
algorithm of `Number.prototype.toString` is approximated by plain decimal
expansion; no theorem inspects this text). -/
def numToString (q : Rat) : String :=
  let sign : String := if q < 0 then "-" else ""
  let a : Rat := if q < 0 then -q else q
  let frac : Rat := a - a.floor
  sign ++ natRepr a.floor.toNat
    ++ (if frac = 0 then "" else "." ++ fracDigitsAux 32 frac)

mutual
/-- Compact `JSON.stringify`. -/
def jsonStringify : JsonValue → String
  | .null => "null"
  | .bool true => "true"
  | .bool false => "false"
  | .num q => numToString q
  | .str s => "\"" ++ escapeJson s ++ "\""
  | .obj fields => "\x7b" ++ joinFields fields ++ "\x7d"
  | .arr items => "[" ++ joinItems items ++ "]"
termination_by v => sizeOf v
decreasing_by all_goals simp_wf <;> omega

def joinFields : List (String × JsonValue) → String
  | [] => ""
  | [(k, v)] => "\"" ++ escapeJson k ++ "\":" ++ jsonStringify v
  | (k, v) :: p :: rest =>
    "\"" ++ escapeJson k ++ "\":" ++ jsonStringify v ++ "," ++ joinFields (p :: rest)
termination_by l => sizeOf l
decreasing_by all_goals simp_wf <;> omega

def joinItems : List JsonValue → String
  | [] => ""
  | [v] => jsonStringify v
  | v :: w :: rest => jsonStringify v ++ "," ++ joinItems (w :: rest)
termination_by l => sizeOf l
decreasing_by all_goals simp_wf <;> omega
end

/-- The display text template of the sync step:
`"${key}": ${JSON.stringify(value)}`. -/
def syncDisplayText (key : String) (v : JsonValue) : String :=
  "\"" ++ key ++ "\": " ++ jsonStringify v

/-- `findChildByPath` (part_005 lines 838-851): descends through
object-map children only, key by key. -/
def findChildByPath (currentNode : JsonNode) : List String → Option JsonNode
  | [] => some currentNode
  | currentKey :: remainingKeys =>
    match currentNode.children with
    | .objC entries =>
      match entries.find? (fun q => q.1 = currentKey) with
      | some q =>
        if remainingKeys = [] then some q.2 else findChildByPath q.2 remainingKeys
      | none => none
    | _ => none

/-- The best-effort lookup of the sync step (part_005 lines 853-885):
the identical relative path; then the final key nested under an `opts`
child; then the final key as a direct child; then (when the path is
multi-level) the final segment as a direct child — the last two attempts
perform the same lookup, mirroring the source. -/
def syncFindCorresponding (node : JsonNode) (targetChildKeys : List String) :
    Option (JsonNode × List String) :=
  match findChildByPath node targetChildKeys with
  | some cc => some (cc, targetChildKeys)
  | none =>
    if targetChildKeys.length > 0 then
      let targetKey := targetChildKeys.getLast?.getD ""
      let viaOpts : Option (JsonNode × List String) :=
        match node.children with
        | .objC entries =>
          match entries.find? (fun q => q.1 = "opts") with
          | some optsPair =>
            match optsPair.2.children with
            | .objC oentries =>
              match oentries.find? (fun q => q.1 = targetKey) with
              | some w => some (w.2, ["opts", targetKey])
              | none => none
            | _ => none
          | none => none
        | _ => none
      match viaOpts with
      | some r => some r
      | none =>
        let direct : Option (JsonNode × List String) :=
          match node.children with
          | .objC entries =>
            match entries.find? (fun q => q.1 = targetKey) with
            | some w => some (w.2, [targetKey])
            | none => none
          | _ => none
        match direct with
        | some r => some r
        | none =>
          if targetChildKeys.length > 1 then
            match node.children with
            | .objC entries =>
              match entries.find? (fun q => q.1 = targetKey) with
              | some w => some (w.2, [targetKey])
              | none => none
            | _ => none
          else none
    else none

mutual
/-- `updateNodeConfig` (part_005 lines 777-814): the node whose stored
path equals the target path gets the container entry stored/replaced in
its `selectedChildren` (children left as they are — the walk stops
there); all other nodes recurse into their children. -/
def updateNodeConfig (targetPath : List String) (ci : Nat) (cd : ChildData)
    (node : JsonNode) : JsonNode :=
  match node with
  | .mk k v t d e p c pc =>
    if p = targetPath then
      .mk k v t d e p c
        (some (setSlot (pc.getD []) ⟨ci, cd.childPath, cd.childKey, cd.childValue, cd.displayText⟩))
    else
      match c with
      | .noneC => .mk k v t d e p c pc
      | .objC entries => .mk k v t d e p (.objC (updEntriesC targetPath ci cd entries)) pc
      | .arrC items => .mk k v t d e p (.arrC (updItemsC targetPath ci cd items)) pc
termination_by sizeOf node
decreasing_by all_goals simp_wf <;> omega

def updEntriesC (targetPath : List String) (ci : Nat) (cd : ChildData) :
    List (String × JsonNode) → List (String × JsonNode)
  | [] => []
  | (k, c) :: rest =>
    (k, updateNodeConfig targetPath ci cd c) :: updEntriesC targetPath ci cd rest
termination_by l => sizeOf l
decreasing_by all_goals simp_wf <;> omega

def updItemsC (targetPath : List String) (ci : Nat) (cd : ChildData) :
    List JsonNode → List JsonNode
  | [] => []
  | c :: rest => updateNodeConfig targetPath ci cd c :: updItemsC targetPath ci cd rest
termination_by l => sizeOf l
decreasing_by all_goals simp_wf <;> omega
end

mutual
/-- `syncAllPluginsLevels` (part_005 lines 819-932): every node under
`plugins` at the same depth as the target (and different from it) gets
the container entry mirrored using the best-effort lookup; when no
strategy resolves, the node's config is left as is; every node recurses
into its children. -/
def syncAllPluginsLevels (parentPath : List String) (ci : Nat) (cd : ChildData)
    (node : JsonNode) : JsonNode :=
  match node with
  | .mk k v t d e p c pc =>
    let pc1 : Option (List SelectedChild) :=
      if p ≠ [] ∧ p.head? = some "plugins" ∧ p.length = parentPath.length ∧ p ≠ parentPath then
        match syncFindCorresponding (.mk k v t d e p c pc) cd.childPath with
        | some (cc, acp) =>
          let key := acp.getLast?.getD ""
          some (setSlot (pc.getD []) ⟨ci, acp, key, cc.value, syncDisplayText key cc.value⟩)
        | none => pc
      else pc
    match c with
    | .noneC => .mk k v t d e p c pc1
    | .objC entries => .mk k v t d e p (.objC (syncEntries parentPath ci cd entries)) pc1
    | .arrC items => .mk k v t d e p (.arrC (syncItems parentPath ci cd items)) pc1
termination_by sizeOf node
decreasing_by all_goals simp_wf <;> omega

def syncEntries (parentPath : List String) (ci : Nat) (cd : ChildData) :
    List (String × JsonNode) → List (String × JsonNode)
  | [] => []
  | (k, c) :: rest =>
    (k, syncAllPluginsLevels parentPath ci cd c) :: syncEntries parentPath ci cd rest
termination_by l => sizeOf l
decreasing_by all_goals simp_wf <;> omega

def syncItems (parentPath : List String) (ci : Nat) (cd : ChildData) :
    List JsonNode → List JsonNode
  | [] => []
  | c :: rest => syncAllPluginsLevels parentPath ci cd c :: syncItems parentPath ci cd rest
termination_by l => sizeOf l
decreasing_by all_goals simp_wf <;> omega
end

/-- `setParentDisplayConfig(parentPath, containerIndex, childData)`
(part_005 lines 757-957): no-op when `jsonData` is null; for a
plugins-rooted parent path the global container selection is recorded,
the target node is updated in **both** trees, and the display tree is
additionally cross-synced (`jsonData` — the plugin hierarchy view —
deliberately stays unsynced); otherwise both trees get only the target
update. -/
def setParentDisplayConfig (s : EditorState) (parentPath : List String)
    (containerIndex : Nat) (childData : ChildData) : EditorState :=
  match s.jsonData with
  | none => s
  | some jd =>
    let isPluginsPath := parentPath ≠ [] ∧ parentPath.head? = some "plugins"
    let s1 : EditorState :=
      if isPluginsPath then
        { s with
            globalSelectedContainerType :=
              some ⟨containerIndex, childData.childPath.getLast?.getD "", "string"⟩ }
      else s
    match s.displayJsonData with
    | some dd =>
      if isPluginsPath then
        { s1 with
          jsonData := some (updateNodeConfig parentPath containerIndex childData jd)
          displayJsonData := some (syncAllPluginsLevels parentPath containerIndex childData
            (updateNodeConfig parentPath containerIndex childData dd))
          isModified := true }
      else
        { s1 with
          jsonData := some (updateNodeConfig parentPath containerIndex childData jd)
          displayJsonData := some (updateNodeConfig parentPath containerIndex childData dd)
          isModified := true }
    | none =>
      { s1 with
        jsonData := some (updateNodeConfig parentPath containerIndex childData jd)
        displayJsonData := none
        isModified := true }

/-- Observer: the node sitting at a structural position, descending
object children by map key and array children by the child's stored
key. -/
def nodeAt (n : JsonNode) : List String → Option JsonNode
  | [] => some n
  | seg :: rest =>
    match n.children with
    | .objC entries =>
      match entries.find? (fun q => q.1 = seg) with
      | some q => nodeAt q.2 rest
      | none => none
    | .arrC items =>
      match items.find? (fun c => c.key = seg) with
      | some c => nodeAt c rest
      | none => none
    | .noneC => none

mutual
/-- Well-formedness of a tree positioned at `pos`: every node's stored
`path` equals its structural position. -/
def PathsAgree (n : JsonNode) (pos : List String) : Prop :=
  match n with
  | .mk _ _ _ _ _ p c _ => p = pos ∧ ChildrenAgree c pos
termination_by sizeOf n
decreasing_by all_goals simp_wf <;> omega

def ChildrenAgree : JsonChildren → List String → Prop
  | .noneC, _ => True
  | .objC entries, pos => EntriesAgree entries pos
  | .arrC items, pos => ItemsAgree items pos
termination_by c _ => sizeOf c
decreasing_by all_goals simp_wf <;> omega

def EntriesAgree : List (String × JsonNode) → List String → Prop
  | [], _ => True
  | (k, c) :: rest, pos => PathsAgree c (pos ++ [k]) ∧ EntriesAgree rest pos
termination_by l _ => sizeOf l
decreasing_by all_goals simp_wf <;> omega

def ItemsAgree : List JsonNode → List String → Prop
  | [], _ => True
  | c :: rest, pos => PathsAgree c (pos ++ [c.key]) ∧ ItemsAgree rest pos
termination_by l _ => sizeOf l
decreasing_by all_goals simp_wf <;> omega
end

theorem upd_key (tp : List String) (ci : Nat) (cd : ChildData) (n : JsonNode) :
    (updateNodeConfig tp ci cd n).key = n.key := by
  cases n with
  | mk k v t d e p c pc =>
    unfold updateNodeConfig
    by_cases h : p = tp
    · simp [h, JsonNode.key]
    · cases c <;> simp [h, JsonNode.key]

theorem upd_value (tp : List String) (ci : Nat) (cd : ChildData) (n : JsonNode) :
    (updateNodeConfig tp ci cd n).value = n.value := by
  cases n with
  | mk k v t d e p c pc =>
    unfold updateNodeConfig
    by_cases h : p = tp
    · simp [h, JsonNode.value]
    · cases c <;> simp [h, JsonNode.value]

theorem upd_path (tp : List String) (ci : Nat) (cd : ChildData) (n : JsonNode) :
    (updateNodeConfig tp ci cd n).path = n.path := by
  cases n with
  | mk k v t d e p c pc =>
    unfold updateNodeConfig
    by_cases h : p = tp
    · simp [h, JsonNode.path]
    · cases c <;> simp [h, JsonNode.path]

theorem upd_pdc_of_ne (tp : List String) (ci : Nat) (cd : ChildData) (n : JsonNode)
    (h : n.path ≠ tp) :
    (updateNodeConfig tp ci cd n).parentDisplayConfig = n.parentDisplayConfig := by
  cases n with
  | mk k v t d e p c pc =>
    rw [JsonNode.path] at h
    unfold updateNodeConfig
    cases c <;> simp [h, JsonNode.parentDisplayConfig]

theorem upd_mk_obj {tp : List String} {ci : Nat} {cd : ChildData}
    {k : String} {v : JsonValue} {t : String} {d : Nat} {e : Bool} {p : List String}
    {es : List (String × JsonNode)} {pc : Option (List SelectedChild)} (h : p ≠ tp) :
    updateNodeConfig tp ci cd (.mk k v t d e p (.objC es) pc)
      = .mk k v t d e p (.objC (updEntriesC tp ci cd es)) pc := by
  unfold updateNodeConfig
  simp [h]

theorem upd_mk_arr {tp : List String} {ci : Nat} {cd : ChildData}
    {k : String} {v : JsonValue} {t : String} {d : Nat} {e : Bool} {p : List String}
    {items : List JsonNode} {pc : Option (List SelectedChild)} (h : p ≠ tp) :
    updateNodeConfig tp ci cd (.mk k v t d e p (.arrC items) pc)
      = .mk k v t d e p (.arrC (updItemsC tp ci cd items)) pc := by
  unfold updateNodeConfig
  simp [h]

theorem upd_mk_none {tp : List String} {ci : Nat} {cd : ChildData}
    {k : String} {v : JsonValue} {t : String} {d : Nat} {e : Bool} {p : List String}
    {pc : Option (List SelectedChild)} (h : p ≠ tp) :
    updateNodeConfig tp ci cd (.mk k v t d e p .noneC pc)
      = .mk k v t d e p .noneC pc := by
  unfold updateNodeConfig
  simp [h]

theorem find?_updEntriesC (tp : List String) (ci : Nat) (cd : ChildData)
    (es : List (String × JsonNode)) (seg : String) :
    (updEntriesC tp ci cd es).find? (fun q => q.1 = seg)
      = (es.find? (fun q => q.1 = seg)).map (fun q => (q.1, updateNodeConfig tp ci cd q.2)) := by
  induction es with
  | nil => simp [updEntriesC]
  | cons hd tl ih =>
    obtain ⟨k, c⟩ := hd
    by_cases h : k = seg
    · simp [updEntriesC, List.find?_cons_of_pos, h]
    · rw [updEntriesC, List.find?_cons_of_neg _ (by simp [h]),
        List.find?_cons_of_neg _ (by simp [h])]
      exact ih

theorem find?_updItemsC (tp : List String) (ci : Nat) (cd : ChildData)
    (items : List JsonNode) (seg : String) :
    (updItemsC tp ci cd items).find? (fun c => c.key = seg)
      = (items.find? (fun c => c.key = seg)).map (updateNodeConfig tp ci cd) := by
  induction items with
  | nil => simp [updItemsC]
  | cons hd tl ih =>
    by_cases h : hd.key = seg
    · rw [updItemsC, List.find?_cons_of_pos _ (by simp [upd_key, h]),
        List.find?_cons_of_pos _ (by simp [h])]
      rfl
    · rw [updItemsC, List.find?_cons_of_neg _ (by simp [upd_key, h]),
        List.find?_cons_of_neg _ (by simp [h])]
      exact ih

theorem sync_children_none (pp : List String) (ci : Nat) (cd : ChildData)
    {k : String} {v : JsonValue} {t : String} {d : Nat} {e : Bool} {p : List String}
    {pc : Option (List SelectedChild)} :
    (syncAllPluginsLevels pp ci cd (.mk k v t d e p .noneC pc)).children = .noneC := by
  rw [syncAllPluginsLevels.eq_1]
  simp [JsonNode.children]

theorem sync_children_obj (pp : List String) (ci : Nat) (cd : ChildData)
    {k : String} {v : JsonValue} {t : String} {d : Nat} {e : Bool} {p : List String}
    {es : List (String × JsonNode)} {pc : Option (List SelectedChild)} :
    (syncAllPluginsLevels pp ci cd (.mk k v t d e p (.objC es) pc)).children
      = .objC (syncEntries pp ci cd es) := by
  rw [syncAllPluginsLevels.eq_2]
  simp [JsonNode.children]

theorem sync_children_arr (pp : List String) (ci : Nat) (cd : ChildData)
    {k : String} {v : JsonValue} {t : String} {d : Nat} {e : Bool} {p : List String}
    {items : List JsonNode} {pc : Option (List SelectedChild)} :
    (syncAllPluginsLevels pp ci cd (.mk k v t d e p (.arrC items) pc)).children
      = .arrC (syncItems pp ci cd items) := by
  rw [syncAllPluginsLevels.eq_3]
  simp [JsonNode.children]

theorem sync_key (pp : List String) (ci : Nat) (cd : ChildData) (n : JsonNode) :
    (syncAllPluginsLevels pp ci cd n).key = n.key := by
  cases n with
  | mk k v t d e p c pc =>
    cases c with
    | noneC => rw [syncAllPluginsLevels.eq_1]; simp [JsonNode.key]
    | objC entries => rw [syncAllPluginsLevels.eq_2]; simp [JsonNode.key]
    | arrC items => rw [syncAllPluginsLevels.eq_3]; simp [JsonNode.key]

theorem find?_syncEntries (pp : List String) (ci : Nat) (cd : ChildData)
    (es : List (String × JsonNode)) (seg : String) :
    (syncEntries pp ci cd es).find? (fun q => q.1 = seg)
      = (es.find? (fun q => q.1 = seg)).map
          (fun q => (q.1, syncAllPluginsLevels pp ci cd q.2)) := by
  induction es with
  | nil => simp [syncEntries]
  | cons hd tl ih =>
    obtain ⟨k, c⟩ := hd
    by_cases h : k = seg
    · simp [syncEntries, List.find?_cons_of_pos, h]
    · rw [syncEntries, List.find?_cons_of_neg _ (by simp [h]),
        List.find?_cons_of_neg _ (by simp [h])]
      exact ih

theorem find?_syncItems (pp : List String) (ci : Nat) (cd : ChildData)
    (items : List JsonNode) (seg : String) :
    (syncItems pp ci cd items).find? (fun c => c.key = seg)
      = (items.find? (fun c => c.key = seg)).map (syncAllPluginsLevels pp ci cd) := by
  induction items with
  | nil => simp [syncItems]
  | cons hd tl ih =>
    by_cases h : hd.key = seg
    · rw [syncItems, List.find?_cons_of_pos _ (by simp [sync_key, h]),
        List.find?_cons_of_pos _ (by simp [h])]
      rfl
    · rw [syncItems, List.find?_cons_of_neg _ (by simp [sync_key, h]),
        List.find?_cons_of_neg _ (by simp [h])]
      exact ih

/-- `nodeAt` commutes with the cross-sibling sync pass: the sync rebuilds
every node in place. -/
theorem nodeAt_sync (pp : List String) (ci : Nat) (cd : ChildData) :
    ∀ (p : List String) (T : JsonNode),
      nodeAt (syncAllPluginsLevels pp ci cd T) p
        = (nodeAt T p).map (syncAllPluginsLevels pp ci cd) := by
  intro p
  induction p with
  | nil => intro T; rfl
  | cons seg rest ih =>
    intro T
    cases T with
    | mk k v t d e p0 c pc =>
      cases c with
      | noneC =>
        rw [show nodeAt (syncAllPluginsLevels pp ci cd (.mk k v t d e p0 .noneC pc))
              (seg :: rest)
            = (match (syncAllPluginsLevels pp ci cd (.mk k v t d e p0 .noneC pc)).children with
               | .objC entries =>
                 (match entries.find? (fun q => q.1 = seg) with
                  | some q => nodeAt q.2 rest
                  | none => none)
               | .arrC items =>
                 (match items.find? (fun cc => cc.key = seg) with
                  | some cc => nodeAt cc rest
                  | none => none)
               | .noneC => none) from rfl]
        rw [sync_children_none]
        rfl
      | objC entries =>
        rw [show nodeAt (syncAllPluginsLevels pp ci cd (.mk k v t d e p0 (.objC entries) pc))
              (seg :: rest)
            = (match (syncAllPluginsLevels pp ci cd
                  (.mk k v t d e p0 (.objC entries) pc)).children with
               | .objC entries =>
                 (match entries.find? (fun q => q.1 = seg) with
                  | some q => nodeAt q.2 rest
                  | none => none)
               | .arrC items =>
                 (match items.find? (fun cc => cc.key = seg) with
                  | some cc => nodeAt cc rest
                  | none => none)
               | .noneC => none) from rfl]
        rw [sync_children_obj]
        simp only [find?_syncEntries]
        cases hf : entries.find? (fun q => q.1 = seg) with
        | none => simp [nodeAt, JsonNode.children, hf]
        | some q => simp [nodeAt, JsonNode.children, hf, ih]
      | arrC items =>
        rw [show nodeAt (syncAllPluginsLevels pp ci cd (.mk k v t d e p0 (.arrC items) pc))
              (seg :: rest)
            = (match (syncAllPluginsLevels pp ci cd
                  (.mk k v t d e p0 (.arrC items) pc)).children with
               | .objC entries =>
                 (match entries.find? (fun q => q.1 = seg) with
                  | some q => nodeAt q.2 rest
                  | none => none)
               | .arrC items =>
                 (match items.find? (fun cc => cc.key = seg) with
                  | some cc => nodeAt cc rest
                  | none => none)
               | .noneC => none) from rfl]
        rw [sync_children_arr]
        simp only [find?_syncItems]
        cases hf : items.find? (fun cc => cc.key = seg) with
        | none => simp [nodeAt, JsonNode.children, hf]
        | some q => simp [nodeAt, JsonNode.children, hf, ih]

theorem PathsAgree_path {n : JsonNode} {pos : List String} (h : PathsAgree n pos) :
    n.path = pos := by
  cases n with
  | mk k v t d e p c pc =>
    rw [PathsAgree] at h
    rw [JsonNode.path]
    exact h.1

theorem PathsAgree_children {n : JsonNode} {pos : List String} (h : PathsAgree n pos) :
    ChildrenAgree n.children pos := by
  cases n with
  | mk k v t d e p c pc =>
    rw [PathsAgree] at h
    rw [JsonNode.children]
    exact h.2

theorem EntriesAgree_find? {es : List (String × JsonNode)} {pos : List String}
    {seg : String} {q : String × JsonNode}
    (h : EntriesAgree es pos) (hf : es.find? (fun q => q.1 = seg) = some q) :
    q.1 = seg ∧ PathsAgree q.2 (pos ++ [seg]) := by
  induction es with
  | nil => cases hf
  | cons hd tl ih =>
    obtain ⟨k, c⟩ := hd
    rw [EntriesAgree] at h
    by_cases hk : k = seg
    · rw [List.find?_cons_of_pos _ (by simp [hk])] at hf
      injection hf with h'
      subst h'
      exact ⟨by simpa using hk, by rw [← hk]; exact h.1⟩
    · rw [List.find?_cons_of_neg _ (by simp [hk])] at hf
      exact ih h.2 hf

theorem ItemsAgree_find? {items : List JsonNode} {pos : List String}
    {seg : String} {c : JsonNode}
    (h : ItemsAgree items pos) (hf : items.find? (fun c => c.key = seg) = some c) :
    c.key = seg ∧ PathsAgree c (pos ++ [seg]) := by
  induction items with
  | nil => cases hf
  | cons hd tl ih =>
    rw [ItemsAgree] at h
    by_cases hk : hd.key = seg
    · rw [List.find?_cons_of_pos _ (by simp [hk])] at hf
      injection hf with h'
      subst h'
      exact ⟨hk, by rw [← hk]; exact h.1⟩
    · rw [List.find?_cons_of_neg _ (by simp [hk])] at hf
      exact ih h.2 hf

/-- `nodeAt` lands on a node whose stored path is its position. -/
theorem nodeAt_wf (p : List String) :
    ∀ (T : JsonNode) (pos : List String) (n : JsonNode),
      PathsAgree T pos → nodeAt T p = some n → PathsAgree n (pos ++ p) := by
  induction p with
  | nil =>
    intro T pos n hwf hn
    rw [show nodeAt T [] = some T from rfl] at hn
    injection hn with h'
    subst h'
    simpa using hwf
  | cons seg rest ih =>
    intro T pos n hwf hn
    cases T with
    | mk k v t d e p0 c pc =>
      have hca : ChildrenAgree c pos := by
        have := PathsAgree_children hwf
        rwa [JsonNode.children] at this
      cases c with
      | noneC => cases hn
      | objC entries =>
        rw [ChildrenAgree] at hca
        rw [show nodeAt (JsonNode.mk k v t d e p0 (JsonChildren.objC entries) pc) (seg :: rest)
            = (match entries.find? (fun q => q.1 = seg) with
               | some q => nodeAt q.2 rest
               | none => none) from rfl] at hn
        cases hf : entries.find? (fun q => q.1 = seg) with
        | none => rw [hf] at hn; cases hn
        | some q =>
          rw [hf] at hn
          have hpa := (EntriesAgree_find? hca hf).2
          have := ih q.2 (pos ++ [seg]) n hpa hn
          rwa [List.append_assoc] at this
      | arrC items =>
        rw [ChildrenAgree] at hca
        rw [show nodeAt (JsonNode.mk k v t d e p0 (JsonChildren.arrC items) pc) (seg :: rest)
            = (match items.find? (fun c2 => c2.key = seg) with
               | some c2 => nodeAt c2 rest
               | none => none) from rfl] at hn
        cases hf : items.find? (fun c2 => c2.key = seg) with
        | none => rw [hf] at hn; cases hn
        | some c2 =>
          rw [hf] at hn
          have hpa := (ItemsAgree_find? hca hf).2
          have := ih c2 (pos ++ [seg]) n hpa hn
          rwa [List.append_assoc] at this

/-- `nodeAt` commutes with `updateNodeConfig` when no position along the
looked-up path is the update target. -/
theorem nodeAt_upd (tp : List String) (ci : Nat) (cd : ChildData) :
    ∀ (p : List String) (T : JsonNode) (pos : List String),
      PathsAgree T pos → (∀ q, q <+: p → pos ++ q ≠ tp) →
      nodeAt (updateNodeConfig tp ci cd T) p
        = (nodeAt T p).map (updateNodeConfig tp ci cd) := by
  intro p
  induction p with
  | nil => intro T pos _ _; rfl
  | cons seg rest ih =>
    intro T pos hwf hq
    cases T with
    | mk k v t d e p0 c pc =>
      have hp0 : p0 = pos := by
        have := PathsAgree_path hwf
        rwa [JsonNode.path] at this
      have hca : ChildrenAgree c pos := by
        have := PathsAgree_children hwf
        rwa [JsonNode.children] at this
      have hne : p0 ≠ tp := by
        rw [hp0]
        have := hq [] ⟨seg :: rest, rfl⟩
        simpa using this
      have hcond : ∀ q' : List String, q' <+: rest → (pos ++ [seg]) ++ q' ≠ tp := by
        intro q' hpre
        obtain ⟨tail, ht⟩ := hpre
        have := hq (seg :: q') ⟨tail, by simp [ht]⟩
        simpa [List.append_assoc] using this
      cases c with
      | noneC =>
        rw [upd_mk_none hne]
        rfl
      | objC entries =>
        rw [upd_mk_obj hne]
        rw [show nodeAt (JsonNode.mk k v t d e p0
              (JsonChildren.objC (updEntriesC tp ci cd entries)) pc) (seg :: rest)
            = (match (updEntriesC tp ci cd entries).find? (fun q => q.1 = seg) with
               | some q => nodeAt q.2 rest
               | none => none) from rfl]
        rw [show nodeAt (JsonNode.mk k v t d e p0 (JsonChildren.objC entries) pc) (seg :: rest)
            = (match entries.find? (fun q => q.1 = seg) with
               | some q => nodeAt q.2 rest
               | none => none) from rfl]
        rw [find?_updEntriesC]
        rw [ChildrenAgree] at hca
        cases hf : entries.find? (fun q => q.1 = seg) with
        | none => simp
        | some q =>
          simp only [Option.map]
          have hpa : PathsAgree q.2 (pos ++ [seg]) := (EntriesAgree_find? hca hf).2
          exact ih q.2 (pos ++ [seg]) hpa hcond
      | arrC items =>
        rw [upd_mk_arr hne]
        rw [show nodeAt (JsonNode.mk k v t d e p0
              (JsonChildren.arrC (updItemsC tp ci cd items)) pc) (seg :: rest)
            = (match (updItemsC tp ci cd items).find? (fun c2 => c2.key = seg) with
               | some c2 => nodeAt c2 rest
               | none => none) from rfl]
        rw [show nodeAt (JsonNode.mk k v t d e p0 (JsonChildren.arrC items) pc) (seg :: rest)
            = (match items.find? (fun c2 => c2.key = seg) with
               | some c2 => nodeAt c2 rest
               | none => none) from rfl]
        rw [find?_updItemsC]
        rw [ChildrenAgree] at hca
        cases hf : items.find? (fun c2 => c2.key = seg) with
        | none => simp
        | some c2 =>
          simp only [Option.map]
          have hpa : PathsAgree c2 (pos ++ [seg]) := (ItemsAgree_find? hca hf).2
          exact ih c2 (pos ++ [seg]) hpa hcond

/-- `findChildByPath` commutes with `updateNodeConfig` below any node
strictly deeper than (or aside) the update target. -/
theorem findChild_upd (tp : List String) (ci : Nat) (cd : ChildData) :
    ∀ (keys : List String) (n : JsonNode) (pos : List String),
      PathsAgree n pos → tp.length ≤ pos.length → pos ≠ tp →
      findChildByPath (updateNodeConfig tp ci cd n) keys
        = (findChildByPath n keys).map (updateNodeConfig tp ci cd) := by
  intro keys
  induction keys with
  | nil => intro n pos _ _ _; rfl
  | cons key rest ih =>
    intro n pos hwf hlen hne
    cases n with
    | mk k v t d e p0 c pc =>
      have hp0 : p0 = pos := by
        have := PathsAgree_path hwf
        rwa [JsonNode.path] at this
      have hca : ChildrenAgree c pos := by
        have := PathsAgree_children hwf
        rwa [JsonNode.children] at this
      have hne0 : p0 ≠ tp := hp0 ▸ hne
      cases c with
      | noneC =>
        rw [upd_mk_none hne0]
        rfl
      | arrC items =>
        rw [upd_mk_arr hne0]
        rfl
      | objC entries =>
        rw [upd_mk_obj hne0]
        rw [show findChildByPath (JsonNode.mk k v t d e p0
              (JsonChildren.objC (updEntriesC tp ci cd entries)) pc) (key :: rest)
            = (match (updEntriesC tp ci cd entries).find? (fun q => q.1 = key) with
               | some q => if rest = [] then some q.2 else findChildByPath q.2 rest
               | none => none) from rfl]
        rw [show findChildByPath (JsonNode.mk k v t d e p0 (JsonChildren.objC entries) pc)
              (key :: rest)
            = (match entries.find? (fun q => q.1 = key) with
               | some q => if rest = [] then some q.2 else findChildByPath q.2 rest
               | none => none) from rfl]
        rw [find?_updEntriesC]
        rw [ChildrenAgree] at hca
        cases hf : entries.find? (fun q => q.1 = key) with
        | none => simp
        | some q =>
          simp only [Option.map]
          by_cases hr : rest = []
          · simp [hr]
          · rw [if_neg hr, if_neg hr]
            have hpa : PathsAgree q.2 (pos ++ [key]) := (EntriesAgree_find? hca hf).2
            refine ih q.2 (pos ++ [key]) hpa ?_ ?_
            · rw [List.length_append, List.length_singleton]
              omega
            · intro hcontra
              have : (pos ++ [key]).length = tp.length := by rw [hcontra]
              rw [List.length_append, List.length_singleton] at this
              omega

theorem findSlot_setSlot (sc : List SelectedChild) (en : SelectedChild) :
    findSlot (setSlot sc en) en.containerIndex = some en := by
  induction sc with
  | nil => simp [setSlot, findSlot]
  | cons item rest ih =>
    by_cases h : item.containerIndex = en.containerIndex
    · simp [setSlot, h, findSlot]
    · rw [setSlot, if_neg h, findSlot, List.find?_cons_of_neg _ (by simp [h])]
      exact ih

theorem sync_pdc_found (pp : List String) (ci : Nat) (cd : ChildData)
    {k : String} {v : JsonValue} {t : String} {d : Nat} {e : Bool} {p : List String}
    {c : JsonChildren} {pc : Option (List SelectedChild)} {cc : JsonNode} {acp : List String}
    (hcond : p ≠ [] ∧ p.head? = some "plugins" ∧ p.length = pp.length ∧ p ≠ pp)
    (hfind : syncFindCorresponding (.mk k v t d e p c pc) cd.childPath = some (cc, acp)) :
    (syncAllPluginsLevels pp ci cd (.mk k v t d e p c pc)).parentDisplayConfig
      = some (setSlot (pc.getD [])
          ⟨ci, acp, acp.getLast?.getD "", cc.value,
            syncDisplayText (acp.getLast?.getD "") cc.value⟩) := by
  cases c with
  | noneC =>
    rw [syncAllPluginsLevels.eq_1]
    simp [JsonNode.parentDisplayConfig, if_pos hcond, hfind]
  | objC entries =>
    rw [syncAllPluginsLevels.eq_2]
    simp [JsonNode.parentDisplayConfig, if_pos hcond, hfind]
  | arrC items =>
    rw [syncAllPluginsLevels.eq_3]
    simp [JsonNode.parentDisplayConfig, if_pos hcond, hfind]

theorem sync_pdc_notfound (pp : List String) (ci : Nat) (cd : ChildData)
    {k : String} {v : JsonValue} {t : String} {d : Nat} {e : Bool} {p : List String}
    {c : JsonChildren} {pc : Option (List SelectedChild)}
    (hfind : syncFindCorresponding (.mk k v t d e p c pc) cd.childPath = none) :
    (syncAllPluginsLevels pp ci cd (.mk k v t d e p c pc)).parentDisplayConfig = pc := by
  cases c with
  | noneC =>
    rw [syncAllPluginsLevels.eq_1]
    by_cases hcond : p ≠ [] ∧ p.head? = some "plugins" ∧ p.length = pp.length ∧ p ≠ pp
    · simp [JsonNode.parentDisplayConfig, if_pos hcond, hfind]
    · simp [JsonNode.parentDisplayConfig, if_neg hcond]
  | objC entries =>
    rw [syncAllPluginsLevels.eq_2]
    by_cases hcond : p ≠ [] ∧ p.head? = some "plugins" ∧ p.length = pp.length ∧ p ≠ pp
    · simp [JsonNode.parentDisplayConfig, if_pos hcond, hfind]
    · simp [JsonNode.parentDisplayConfig, if_neg hcond]
  | arrC items =>
    rw [syncAllPluginsLevels.eq_3]
    by_cases hcond : p ≠ [] ∧ p.head? = some "plugins" ∧ p.length = pp.length ∧ p ≠ pp
    · simp [JsonNode.parentDisplayConfig, if_pos hcond, hfind]
    · simp [JsonNode.parentDisplayConfig, if_neg hcond]

theorem upd_children_obj {tp : List String} {ci : Nat} {cd : ChildData} {n : JsonNode}
    {es : List (String × JsonNode)} (h : n.path ≠ tp) (hc : n.children = .objC es) :
    (updateNodeConfig tp ci cd n).children = .objC (updEntriesC tp ci cd es) := by
  cases n with
  | mk k v t d e p c pc =>
    rw [JsonNode.path] at h
    rw [JsonNode.children] at hc
    subst hc
    rw [upd_mk_obj h]
    rfl


/-- C8: plugins-only cross-sibling sync with best-effort fallback.
After `setParentDisplayConfig` on a plugins-rooted parent path, (1) every
other node at the same depth under `plugins` in the display tree that
lacks a direct descendant at the configured child path but holds the
final key one level under an `opts` child gets the same container-index
slot populated from that `opts`-nested value, and (2) a sibling on which
no lookup strategy resolves keeps its previous config (silent no-op). -/
theorem C8_sync_best_effort
    (s : EditorState) (pp : List String) (ci : Nat) (cd : ChildData) (jd D : JsonNode)
    (hjd : s.jsonData = some jd)
    (hD : s.displayJsonData = some D)
    (hwf : PathsAgree D [])
    (hpp : pp ≠ [] ∧ pp.head? = some "plugins") :
    ∃ D', (setParentDisplayConfig s pp ci cd).displayJsonData = some D'
      ∧ (∀ (bpath : List String) (B : JsonNode) (entries : List (String × JsonNode))
            (optsNode : JsonNode) (oentries : List (String × JsonNode)) (w : JsonNode),
          bpath.head? = some "plugins" → bpath.length = pp.length → bpath ≠ pp →
          nodeAt D bpath = some B →
          cd.childPath ≠ [] →
          findChildByPath B cd.childPath = none →
          B.children = .objC entries →
          entries.find? (fun q => q.1 = "opts") = some ("opts", optsNode) →
          optsNode.children = .objC oentries →
          oentries.find? (fun q => q.1 = cd.childPath.getLast?.getD "")
            = some (cd.childPath.getLast?.getD "", w) →
          ∃ B', nodeAt D' bpath = some B'
            ∧ B'.parentDisplayConfig
                = some (setSlot (B.parentDisplayConfig.getD [])
                    ⟨ci, ["opts", cd.childPath.getLast?.getD ""],
                      cd.childPath.getLast?.getD "", w.value,
                      syncDisplayText (cd.childPath.getLast?.getD "") w.value⟩))
      ∧ (∀ (bpath : List String) (B : JsonNode),
          bpath.head? = some "plugins" → bpath.length = pp.length → bpath ≠ pp →
          nodeAt D bpath = some B →
          syncFindCorresponding (updateNodeConfig pp ci cd B) cd.childPath = none →
          ∃ B', nodeAt D' bpath = some B'
            ∧ B'.parentDisplayConfig = B.parentDisplayConfig) := by
  have hip : (pp ≠ [] ∧ pp.head? = some "plugins") = True := eq_true hpp
  refine ⟨syncAllPluginsLevels pp ci cd (updateNodeConfig pp ci cd D), ?_, ?_, ?_⟩
  · unfold setParentDisplayConfig
    rw [hjd, hD]
    simp [hip]
  · intro bpath B entries optsNode oentries w hh hl hne hB hcne hfail hch hopts hoch hw
    have hbne0 : bpath ≠ [] := by intro h; rw [h] at hh; cases hh
    have hBwf : PathsAgree B bpath := by
      have := nodeAt_wf bpath D [] B hwf hB
      simpa using this
    have hnp : ∀ q, q <+: bpath → [] ++ q ≠ pp := by
      intro q hq
      rw [List.nil_append]
      obtain ⟨tl, htl⟩ := hq
      intro hqe
      rw [hqe] at htl
      have hlen2 : pp.length + tl.length = bpath.length := by
        rw [← htl, List.length_append]
      have htl0 : tl = [] := List.eq_nil_of_length_eq_zero (by omega)
      rw [htl0, List.append_nil] at htl
      exact hne htl.symm
    have hDupd : nodeAt (updateNodeConfig pp ci cd D) bpath
        = some (updateNodeConfig pp ci cd B) := by
      rw [nodeAt_upd pp ci cd bpath D [] hwf hnp, hB]
      rfl
    have hDsync :
        nodeAt (syncAllPluginsLevels pp ci cd (updateNodeConfig pp ci cd D)) bpath
          = some (syncAllPluginsLevels pp ci cd (updateNodeConfig pp ci cd B)) := by
      rw [nodeAt_sync, hDupd]
      rfl
    have hfail2 : findChildByPath (updateNodeConfig pp ci cd B) cd.childPath = none := by
      rw [findChild_upd pp ci cd cd.childPath B bpath hBwf hl.ge hne, hfail]
      rfl
    have hlen0 : cd.childPath.length > 0 := List.length_pos.mpr hcne
    cases B with
    | mk bk bv bt bd be bp bc bpc =>
      have hbp : bp = bpath := by
        have := PathsAgree_path hBwf
        rwa [JsonNode.path] at this
      subst hbp
      rw [JsonNode.children] at hch
      subst hch
      have hEA : EntriesAgree entries bp := by
        have := PathsAgree_children hBwf
        rw [JsonNode.children, ChildrenAgree] at this
        exact this
      have hupdB : updateNodeConfig pp ci cd (.mk bk bv bt bd be bp (.objC entries) bpc)
          = .mk bk bv bt bd be bp (.objC (updEntriesC pp ci cd entries)) bpc :=
        upd_mk_obj hne
      rw [hupdB] at hfail2 hDsync
      have h3 : (updEntriesC pp ci cd entries).find? (fun q => q.1 = "opts")
          = some ("opts", updateNodeConfig pp ci cd optsNode) := by
        rw [find?_updEntriesC, hopts]
        rfl
      have hopa : PathsAgree optsNode (bp ++ ["opts"]) := (EntriesAgree_find? hEA hopts).2
      have hopne : optsNode.path ≠ pp := by
        rw [PathsAgree_path hopa]
        intro he
        have hlh : (bp ++ ["opts"]).length = pp.length := by rw [he]
        rw [List.length_append, List.length_singleton] at hlh
        omega
      have h4 : (updateNodeConfig pp ci cd optsNode).children
          = .objC (updEntriesC pp ci cd oentries) := upd_children_obj hopne hoch
      have h5 : (updEntriesC pp ci cd oentries).find?
            (fun q => q.1 = cd.childPath.getLast?.getD "")
          = some (cd.childPath.getLast?.getD "", updateNodeConfig pp ci cd w) := by
        rw [find?_updEntriesC, hw]
        rfl
      cases hmk : updateNodeConfig pp ci cd optsNode with
      | mk ok ov ot od oe op2 oc opc =>
      rw [hmk] at h3 h4
      rw [JsonNode.children] at h4
      subst h4
      have hfc : syncFindCorresponding
            (.mk bk bv bt bd be bp (.objC (updEntriesC pp ci cd entries)) bpc)
            cd.childPath
          = some (updateNodeConfig pp ci cd w,
              ["opts", cd.childPath.getLast?.getD ""]) := by
        unfold syncFindCorresponding
        rw [hfail2]
        simp only [gt_iff_lt, hlen0, if_true, JsonNode.children, h3, h5]
      have hcond : bp ≠ [] ∧ bp.head? = some "plugins"
          ∧ bp.length = pp.length ∧ bp ≠ pp := ⟨hbne0, hh, hl, hne⟩
      have hpdc := sync_pdc_found pp ci cd hcond hfc
      rw [upd_value] at hpdc
      rw [show ((["opts", cd.childPath.getLast?.getD ""] : List String).getLast?.getD "")
          = cd.childPath.getLast?.getD "" from rfl] at hpdc
      exact ⟨_, hDsync, by rw [hpdc]; rfl⟩
  · intro bpath B hh hl hne hB hnofind
    have hbne0 : bpath ≠ [] := by intro h; rw [h] at hh; cases hh
    have hBwf : PathsAgree B bpath := by
      have := nodeAt_wf bpath D [] B hwf hB
      simpa using this
    have hnp : ∀ q, q <+: bpath → [] ++ q ≠ pp := by
      intro q hq
      rw [List.nil_append]
      obtain ⟨tl, htl⟩ := hq
      intro hqe
      rw [hqe] at htl
      have hlen2 : pp.length + tl.length = bpath.length := by
        rw [← htl, List.length_append]
      have htl0 : tl = [] := List.eq_nil_of_length_eq_zero (by omega)
      rw [htl0, List.append_nil] at htl
      exact hne htl.symm
    have hDupd : nodeAt (updateNodeConfig pp ci cd D) bpath
        = some (updateNodeConfig pp ci cd B) := by
      rw [nodeAt_upd pp ci cd bpath D [] hwf hnp, hB]
      rfl
    have hDsync :
        nodeAt (syncAllPluginsLevels pp ci cd (updateNodeConfig pp ci cd D)) bpath
          = some (syncAllPluginsLevels pp ci cd (updateNodeConfig pp ci cd B)) := by
      rw [nodeAt_sync, hDupd]
      rfl
    cases B with
    | mk bk bv bt bd be bp bc bpc =>
      have hbp : bp = bpath := by
        have := PathsAgree_path hBwf
        rwa [JsonNode.path] at this
      subst hbp
      cases bc with
      | noneC =>
        rw [upd_mk_none hne] at hnofind hDsync
        have hpdc := sync_pdc_notfound pp ci cd hnofind
        exact ⟨_, hDsync, by rw [hpdc]; rfl⟩
      | objC entries =>
        rw [upd_mk_obj hne] at hnofind hDsync
        have hpdc := sync_pdc_notfound pp ci cd hnofind
        exact ⟨_, hDsync, by rw [hpdc]; rfl⟩
      | arrC items =>
        rw [upd_mk_arr hne] at hnofind hDsync
        have hpdc := sync_pdc_notfound pp ci cd hnofind
        exact ⟨_, hDsync, by rw [hpdc]; rfl⟩

def C8wW : JsonNode := .mk "x" (.num 2) "number" 4 false ["plugins", "b", "opts", "x"] .noneC none

def C8wOP : JsonNode :=
  .mk "opts" (.obj [("x", .num 2)]) "object" 3 false ["plugins", "b", "opts"]
    (.objC [("x", C8wW)]) none

def C8wB : JsonNode :=
  .mk "b" (.obj []) "object" 2 false ["plugins", "b"] (.objC [("opts", C8wOP)]) none

def C8wAX : JsonNode := .mk "x" (.num 1) "number" 3 false ["plugins", "a", "x"] .noneC none

def C8wA : JsonNode :=
  .mk "a" (.obj []) "object" 2 false ["plugins", "a"] (.objC [("x", C8wAX)]) none

def C8wP : JsonNode :=
  .mk "plugins" (.obj []) "object" 1 false ["plugins"] (.objC [("a", C8wA), ("b", C8wB)]) none

def C8wD : JsonNode :=
  .mk "root" (.obj []) "object" 0 false [] (.objC [("plugins", C8wP)]) none

def C8wState : EditorState :=
  { jsonContent := .null
    originalJsonContent := .null
    displayJsonContent := .null
    jsonData := some C8wD
    displayJsonData := some C8wD
    isModified := false
    globalSelectedContainerType := none }

def C8wCd : ChildData := ⟨["x"], "x", .num 1, "t"⟩

/-- Witness for C8 on a concrete two-plugin display tree where plugin "b"
holds the target key "x" only under `opts`. -/
theorem C8_sync_witness :
    ∃ D', (setParentDisplayConfig C8wState ["plugins", "a"] 0 C8wCd).displayJsonData = some D'
      ∧ ∃ B', nodeAt D' ["plugins", "b"] = some B'
        ∧ B'.parentDisplayConfig
            = some [⟨0, ["opts", "x"], "x", .num 2, syncDisplayText "x" (.num 2)⟩] := by
  obtain ⟨D', h0, h1, h2⟩ := C8_sync_best_effort C8wState ["plugins", "a"] 0 C8wCd C8wD C8wD
    rfl rfl
    (by simp [C8wD, C8wP, C8wA, C8wAX, C8wB, C8wOP, C8wW,
      PathsAgree, ChildrenAgree, EntriesAgree, ItemsAgree, JsonNode.key])
    ⟨by simp, rfl⟩
  obtain ⟨B', hB', hpdc⟩ := h1 ["plugins", "b"] C8wB [("opts", C8wOP)] C8wOP [("x", C8wW)] C8wW
    rfl rfl (by simp) rfl (by simp [C8wCd]) rfl rfl rfl rfl rfl
  exact ⟨D', h0, B', hB', by rw [hpdc]; rfl⟩


/-! ### C2: non-mutation of the root argument (heap model)

The pure embedding above cannot express mutation of the caller's
argument, so `setValueByPath`/`deleteValueByPath` are re-translated over
an explicit heap: every JSON node lives in a cell at an address, object
fields and array elements hold addresses, and the JavaScript statements
`current[key] = …`, `splice`, `delete` become stores at `current`'s
address.  `JSON.parse(JSON.stringify(obj))` becomes reading the value at
the root address and allocating a fresh copy of it. -/

inductive HCell where
  | cnull : HCell
  | cbool : Bool → HCell
  | cnum : Rat → HCell
  | cstr : String → HCell
  | cobj : List (String × Nat) → HCell
  | carr : List Nat → HCell

abbrev Heap := List HCell

/-- Dereference an object's fields with a given reader for member
addresses. -/
def readFieldsWith (f : Nat → Option JsonValue) :
    List (String × Nat) → Option (List (String × JsonValue))
  | [] => some []
  | (k, a) :: rest =>
    match f a, readFieldsWith f rest with
    | some v, some vs => some ((k, v) :: vs)
    | _, _ => none

def readElemsWith (f : Nat → Option JsonValue) :
    List Nat → Option (List JsonValue)
  | [] => some []
  | a :: rest =>
    match f a, readElemsWith f rest with
    | some v, some vs => some (v :: vs)
    | _, _ => none

/-- The JSON value observed at an address (fuelled: the heaps in scope are
finite, so enough fuel always exists). -/
def readVal : Nat → Heap → Nat → Option JsonValue
  | 0, _, _ => none
  | fuel + 1, h, a =>
    match h[a]? with
    | none => none
    | some .cnull => some .null
    | some (.cbool b) => some (.bool b)
    | some (.cnum q) => some (.num q)
    | some (.cstr s) => some (.str s)
    | some (.cobj fields) => (readFieldsWith (readVal fuel h) fields).map .obj
    | some (.carr elems) => (readElemsWith (readVal fuel h) elems).map .arr

mutual
/-- Allocate a fresh copy of a JSON value (the `JSON.parse` half of the
deep copy): cells are only appended, and every address stored in a fresh
cell is itself fresh. -/
def allocValue : JsonValue → Heap → Heap × Nat
  | .null, h => (h ++ [.cnull], h.length)
  | .bool b, h => (h ++ [.cbool b], h.length)
  | .num q, h => (h ++ [.cnum q], h.length)
  | .str s, h => (h ++ [.cstr s], h.length)
  | .obj fields, h =>
    match allocFields fields h with
    | (h1, fs) => (h1 ++ [.cobj fs], h1.length)
  | .arr items, h =>
    match allocElems items h with
    | (h1, as0) => (h1 ++ [.carr as0], h1.length)
termination_by v _ => sizeOf v
decreasing_by all_goals simp_wf <;> omega

def allocFields : List (String × JsonValue) → Heap → Heap × List (String × Nat)
  | [], h => (h, [])
  | (k, v) :: rest, h =>
    match allocValue v h with
    | (h1, a) =>
      match allocFields rest h1 with
      | (h2, fs) => (h2, (k, a) :: fs)
termination_by l _ => sizeOf l
decreasing_by all_goals simp_wf <;> omega

def allocElems : List JsonValue → Heap → Heap × List Nat
  | [], h => (h, [])
  | v :: rest, h =>
    match allocValue v h with
    | (h1, a) =>
      match allocElems rest h1 with
      | (h2, as0) => (h2, a :: as0)
termination_by l _ => sizeOf l
decreasing_by all_goals simp_wf <;> omega
end

/-- `o[key] = a` on an object cell's field list (same update-or-append
rule as `objSet`). -/
def objSetH : List (String × Nat) → String → Nat → List (String × Nat)
  | [], key, a => [(key, a)]
  | (k, b) :: rest, key, a =>
    if k = key then (k, a) :: rest else (k, b) :: objSetH rest key a

/-- `delete o[key]` on an object cell's field list. -/
def removeKeyH : List (String × Nat) → String → List (String × Nat)
  | [], _ => []
  | (k, a) :: rest, key =>
    if k = key then removeKeyH rest key else (k, a) :: removeKeyH rest key

/-- `splice(start, 1)` on an array cell's element-address list (same
clamping as `spliceOne`). -/
def spliceOneN (elems : List Nat) (start : Int) : List Nat :=
  let s : Nat := if start < 0 then (elems.length + start).toNat else min start.toNat elems.length
  elems.take s ++ elems.drop (s + 1)

/-- The loop of `setValueByPath` (part_005 lines 243-252) on the heap,
`cur` being the address held by the `current` alias.  Intermediate
segments follow the stored child address, or allocate a fresh `{}` cell
and store its address; the final segment stores the value's address
`xa`.  A `null` or primitive `current` makes the walk throw exactly as in
the pure `setWalk` (property reads through a string intermediate only
postpone the strict-mode TypeError of the eventual assignment, and no
heap cell is ever written on those paths), and the heap mutated so far is
returned alongside the outcome. -/
def setWalkH : Heap → Nat → List String → Nat → Heap × Except Unit Unit
  | h, _, [], _ => (h, .ok ())
  | h, cur, [key], xa =>
    match h[cur]? with
    | some (.cobj fields) => (h.set cur (.cobj (objSetH fields key xa)), .ok ())
    | some (.carr elems) =>
      (match canonIndex key with
       | some i =>
         if i < elems.length then (h.set cur (.carr (elems.set i xa)), .ok ())
         else if i = elems.length then (h.set cur (.carr (elems ++ [xa])), .ok ())
         else (h, .error ())
       | none => (h, .error ()))
    | _ => (h, .error ())
  | h, cur, key :: r1 :: rs, xa =>
    match h[cur]? with
    | some (.cobj fields) =>
      (match fields.find? (fun q => q.1 = key) with
       | some q => setWalkH h q.2 (r1 :: rs) xa
       | none =>
         setWalkH ((h ++ [HCell.cobj []]).set cur (.cobj (fields ++ [(key, h.length)])))
           h.length (r1 :: rs) xa)
    | some (.carr elems) =>
      (match canonIndex key with
       | some i =>
         match elems.get? i with
         | some ca => setWalkH h ca (r1 :: rs) xa
         | none =>
           if i = elems.length then
             setWalkH ((h ++ [HCell.cobj []]).set cur (.carr (elems ++ [h.length])))
               h.length (r1 :: rs) xa
           else (h, .error ())
       | none => (h, .error ()))
    | _ => (h, .error ())

/-- `setValueByPath(obj, path, value)` on the heap: an empty path returns
the value's address without touching the heap; otherwise the root's value
is deep-copied into fresh cells and the copy is walked and mutated.  The
result address is the copy's root.  (`none` from `readVal` is a fuel
artefact: `JSON.stringify` cannot fail on a materialised JSON value.) -/
def setValueByPathH (fuel : Nat) (h : Heap) (r : Nat) (path : List String)
    (xa : Nat) : Heap × Except Unit Nat :=
  match path with
  | [] => (h, .ok xa)
  | _ :: _ =>
    match readVal fuel h r with
    | none => (h, .error ())
    | some v =>
      match allocValue v h with
      | (h1, nr) =>
        match setWalkH h1 nr path xa with
        | (h2, .ok _) => (h2, .ok nr)
        | (h2, .error e) => (h2, .error e)

/-- The loop of `deleteValueByPath` (part_005 lines 268-281) on the heap.
Intermediate segments follow the stored child address and return the copy
unchanged on an undefined read; a primitive `current` continues on the
copied primitive value via the pure `delWalk` (no cell can be written
through a primitive, so the heap is untouched there); the final segment
splices array cells and deletes from object cells in place. -/
def delWalkH : Heap → Nat → List String → Heap × Except Unit Unit
  | h, _, [] => (h, .ok ())
  | h, cur, [key] =>
    match h[cur]? with
    | some (.cobj fields) => (h.set cur (.cobj (removeKeyH fields key)), .ok ())
    | some (.carr elems) =>
      (match parseIntJS key with
       | some i => (h.set cur (.carr (spliceOneN elems i)), .ok ())
       | none => (h.set cur (.carr (spliceOneN elems 0)), .ok ()))
    | some .cnull => (h, .error ())
    | some (.cbool _) => (h, .ok ())
    | some (.cnum _) => (h, .ok ())
    | some (.cstr s) => (h, (jsDeleteProp (.str s) key).map (fun _ => ()))
    | none => (h, .error ())
  | h, cur, key :: r1 :: rs =>
    match h[cur]? with
    | some (.cobj fields) =>
      (match fields.find? (fun q => q.1 = key) with
       | some q => delWalkH h q.2 (r1 :: rs)
       | none => (h, .ok ()))
    | some (.carr elems) =>
      (if key = "length" then
        (h, (delWalk (.num elems.length) (r1 :: rs)).map (fun _ => ()))
       else
        match canonIndex key with
        | some i =>
          match elems.get? i with
          | some ca => delWalkH h ca (r1 :: rs)
          | none => (h, .ok ())
        | none => (h, .ok ()))
    | some .cnull => (h, .error ())
    | some (.cbool _) => (h, .ok ())
    | some (.cnum _) => (h, .ok ())
    | some (.cstr s) => (h, (delWalk (.str s) (key :: r1 :: rs)).map (fun _ => ()))
    | none => (h, .error ())

/-- `deleteValueByPath(obj, path)` on the heap: an empty path returns the
root itself (no copy); otherwise the root's value is deep-copied and the
copy is walked and mutated. -/
def deleteValueByPathH (fuel : Nat) (h : Heap) (r : Nat) (path : List String) :
    Heap × Except Unit Nat :=
  match path with
  | [] => (h, .ok r)
  | _ :: _ =>
    match readVal fuel h r with
    | none => (h, .error ())
    | some v =>
      match allocValue v h with
      | (h1, nr) =>
        match delWalkH h1 nr path with
        | (h2, .ok _) => (h2, .ok nr)
        | (h2, .error e) => (h2, .error e)

/-- The addresses stored in a cell. -/
def cellAddrs : HCell → List Nat
  | .cobj fields => fields.map (fun p => p.2)
  | .carr elems => elems
  | _ => []

/-- Every cell at an address `≥ n` holds only addresses `≥ n`: the
freshly cloned region is closed, so the walk never escapes into the
original structure. -/
def ClosedAbove (h : Heap) (n : Nat) : Prop :=
  ∀ a cell, n ≤ a → h[a]? = some cell → ∀ b ∈ cellAddrs cell, n ≤ b

theorem get?_set_ne {α : Type _} (l : List α) (i j : Nat) (c : α) (h : j ≠ i) :
    (l.set i c)[j]? = l[j]? := by
  induction l generalizing i j with
  | nil => simp
  | cons hd tl ih =>
    cases i with
    | zero =>
      cases j with
      | zero => exact absurd rfl h
      | succ m => simp
    | succ n =>
      cases j with
      | zero => simp
      | succ m => simpa using ih n m (by omega)

theorem readFieldsWith_stable {f g : Nat → Option JsonValue}
    (hfg : ∀ a v, f a = some v → g a = some v) :
    ∀ (l : List (String × Nat)) (out : List (String × JsonValue)),
      readFieldsWith f l = some out → readFieldsWith g l = some out := by
  intro l
  induction l with
  | nil => intro out h; exact h
  | cons hd tl ih =>
    obtain ⟨k, a⟩ := hd
    intro out h
    rw [readFieldsWith] at h ⊢
    cases hf : f a with
    | none => rw [hf] at h; cases h
    | some v =>
      rw [hf] at h
      cases hr : readFieldsWith f tl with
      | none => rw [hr] at h; cases h
      | some vs =>
        rw [hr] at h
        rw [hfg a v hf, ih vs hr]
        exact h

theorem readElemsWith_stable {f g : Nat → Option JsonValue}
    (hfg : ∀ a v, f a = some v → g a = some v) :
    ∀ (l : List Nat) (out : List JsonValue),
      readElemsWith f l = some out → readElemsWith g l = some out := by
  intro l
  induction l with
  | nil => intro out h; exact h
  | cons a tl ih =>
    intro out h
    rw [readElemsWith] at h ⊢
    cases hf : f a with
    | none => rw [hf] at h; cases h
    | some v =>
      rw [hf] at h
      cases hr : readElemsWith f tl with
      | none => rw [hr] at h; cases h
      | some vs =>
        rw [hr] at h
        rw [hfg a v hf, ih vs hr]
        exact h

/-- Reading is stable under any heap change that leaves the cells below
the current length in place: a successful read only dereferences such
cells. -/
theorem readVal_stable : ∀ (fuel : Nat) (h h2 : Heap),
    (∀ a, a < h.length → h2[a]? = h[a]?) →
    ∀ r v, readVal fuel h r = some v → readVal fuel h2 r = some v := by
  intro fuel
  induction fuel with
  | zero => intro h h2 _ r v hr; rw [readVal] at hr; cases hr
  | succ fuel ih =>
    intro h h2 hag r v hr
    rw [readVal] at hr ⊢
    cases hc : h[r]? with
    | none => rw [hc] at hr; cases hr
    | some cell =>
      have hrlt : r < h.length := by
        by_contra hge
        rw [List.getElem?_eq_none (by omega)] at hc
        cases hc
      rw [hag r hrlt, hc]
      rw [hc] at hr
      cases cell with
      | cnull => exact hr
      | cbool b => exact hr
      | cnum q => exact hr
      | cstr s => exact hr
      | cobj fields =>
        simp only [] at hr ⊢
        cases hf : readFieldsWith (readVal fuel h) fields with
        | none => rw [hf] at hr; cases hr
        | some out =>
          rw [hf] at hr
          rw [readFieldsWith_stable (fun a w hw => ih h h2 hag a w hw) fields out hf]
          exact hr
      | carr elems =>
        simp only [] at hr ⊢
        cases hf : readElemsWith (readVal fuel h) elems with
        | none => rw [hf] at hr; cases hr
        | some out =>
          rw [hf] at hr
          rw [readElemsWith_stable (fun a w hw => ih h h2 hag a w hw) elems out hf]
          exact hr

theorem ClosedAbove_append {h : Heap} {n : Nat} (hc : ClosedAbove h n) (cell : HCell)
    (hcell : ∀ b ∈ cellAddrs cell, n ≤ b) : ClosedAbove (h ++ [cell]) n := by
  intro a c ha hget b hb
  by_cases hlt : a < h.length
  · rw [List.getElem?_append_left hlt] at hget
    exact hc a c ha hget b hb
  · by_cases he : a = h.length
    · subst he
      rw [get?_append_singleton] at hget
      injection hget with h'
      subst h'
      exact hcell b hb
    · rw [List.getElem?_eq_none (by simp; omega)] at hget
      cases hget

theorem ClosedAbove_set {h : Heap} {n i : Nat} {cell : HCell}
    (hca : ClosedAbove h n) (hcell : ∀ b ∈ cellAddrs cell, n ≤ b) :
    ClosedAbove (h.set i cell) n := by
  intro a c ha hget b hb
  by_cases hai : a = i
  · subst hai
    by_cases hlt : a < h.length
    · rw [get?_set_lt _ _ _ hlt] at hget
      injection hget with h'
      subst h'
      exact hcell b hb
    · rw [List.getElem?_eq_none (by simp; omega)] at hget
      cases hget
  · rw [get?_set_ne _ _ _ _ hai] at hget
    exact hca a c ha hget b hb

/-- Allocation appends fresh cells only, hands back a fresh address, and
keeps the heap closed above any bound at or below the old length. -/
theorem alloc_all : ∀ (N : Nat),
    (∀ (v : JsonValue) (h : Heap) (n : Nat), sizeOf v ≤ N → n ≤ h.length →
      ClosedAbove h n →
      ClosedAbove (allocValue v h).1 n ∧ (∃ t, (allocValue v h).1 = h ++ t)
        ∧ h.length ≤ (allocValue v h).2)
    ∧ (∀ (l : List (String × JsonValue)) (h : Heap) (n : Nat), sizeOf l ≤ N →
      n ≤ h.length → ClosedAbove h n →
      ClosedAbove (allocFields l h).1 n ∧ (∃ t, (allocFields l h).1 = h ++ t)
        ∧ ∀ p ∈ (allocFields l h).2, h.length ≤ p.2)
    ∧ (∀ (l : List JsonValue) (h : Heap) (n : Nat), sizeOf l ≤ N →
      n ≤ h.length → ClosedAbove h n →
      ClosedAbove (allocElems l h).1 n ∧ (∃ t, (allocElems l h).1 = h ++ t)
        ∧ ∀ b ∈ (allocElems l h).2, h.length ≤ b) := by
  intro N
  induction N using Nat.strong_induction_on with
  | _ N ih =>
    refine ⟨?_, ?_, ?_⟩
    · intro v h n hsz hn hca
      cases v with
      | null =>
        rw [allocValue.eq_1]
        exact ⟨ClosedAbove_append hca _ (by intro b hb; simp [cellAddrs] at hb),
          ⟨[.cnull], rfl⟩, le_rfl⟩
      | bool b =>
        rw [allocValue.eq_2]
        exact ⟨ClosedAbove_append hca _ (by intro c hc; simp [cellAddrs] at hc),
          ⟨[.cbool b], rfl⟩, le_rfl⟩
      | num q =>
        rw [allocValue.eq_3]
        exact ⟨ClosedAbove_append hca _ (by intro c hc; simp [cellAddrs] at hc),
          ⟨[.cnum q], rfl⟩, le_rfl⟩
      | str s =>
        rw [allocValue.eq_4]
        exact ⟨ClosedAbove_append hca _ (by intro c hc; simp [cellAddrs] at hc),
          ⟨[.cstr s], rfl⟩, le_rfl⟩
      | obj fields =>
        have hlt : sizeOf fields < N := by
          have h1 : sizeOf fields < sizeOf (JsonValue.obj fields) := by simp <;> omega
          omega
        have hF := ((ih (sizeOf fields) hlt).2.1) fields h n le_rfl hn hca
        cases haf : allocFields fields h with
        | mk h1 fs =>
          simp only [haf] at hF
          obtain ⟨hcl1, ⟨t0, hht⟩, haddrs⟩ := hF
          rw [allocValue.eq_5]
          simp only [haf]
          refine ⟨?_, ?_, ?_⟩
          · refine ClosedAbove_append hcl1 _ ?_
            intro b hb
            rw [cellAddrs] at hb
            obtain ⟨p, hp, hpb⟩ := List.mem_map.mp hb
            have := haddrs p hp
            omega
          · rw [hht]
            exact ⟨t0 ++ [.cobj fs], by rw [List.append_assoc]⟩
          · rw [hht]
            simp
      | arr items =>
        have hlt : sizeOf items < N := by
          have h1 : sizeOf items < sizeOf (JsonValue.arr items) := by simp <;> omega
          omega
        have hF := ((ih (sizeOf items) hlt).2.2) items h n le_rfl hn hca
        cases haf : allocElems items h with
        | mk h1 as0 =>
          simp only [haf] at hF
          obtain ⟨hcl1, ⟨t0, hht⟩, haddrs⟩ := hF
          rw [allocValue.eq_6]
          simp only [haf]
          refine ⟨?_, ?_, ?_⟩
          · refine ClosedAbove_append hcl1 _ ?_
            intro b hb
            rw [cellAddrs] at hb
            have := haddrs b hb
            omega
          · rw [hht]
            exact ⟨t0 ++ [.carr as0], by rw [List.append_assoc]⟩
          · rw [hht]
            simp
    · intro l h n hsz hn hca
      cases l with
      | nil =>
        rw [allocFields.eq_1]
        exact ⟨hca, ⟨[], by simp⟩, by intro p hp; cases hp⟩
      | cons hd tl =>
        obtain ⟨k, v⟩ := hd
        have hltv : sizeOf v < N := by
          have h1 : sizeOf v < sizeOf ((k, v) :: tl) := by simp <;> omega
          omega
        have hltl : sizeOf tl < N := by
          have h1 : sizeOf tl < sizeOf ((k, v) :: tl) := by simp <;> omega
          omega
        have hV := ((ih (sizeOf v) hltv).1) v h n le_rfl hn hca
        cases hav : allocValue v h with
        | mk h1 a =>
          simp only [hav] at hV
          obtain ⟨hcl1, ⟨t0, hht0⟩, haddr⟩ := hV
          have hlen1 : h.length ≤ h1.length := by rw [hht0]; simp
          have hT := ((ih (sizeOf tl) hltl).2.1) tl h1 n le_rfl (by omega) hcl1
          cases hat : allocFields tl h1 with
          | mk h2 fs =>
            simp only [hat] at hT
            obtain ⟨hcl2, ⟨t1, hht1⟩, haddrs⟩ := hT
            rw [allocFields.eq_2]
            simp only [hav, hat]
            refine ⟨hcl2, ?_, ?_⟩
            · rw [hht1, hht0]
              exact ⟨t0 ++ t1, by rw [List.append_assoc]⟩
            · intro p hp
              cases hp with
              | head => exact haddr
              | tail _ hmem =>
                have := haddrs p hmem
                omega
    · intro l h n hsz hn hca
      cases l with
      | nil =>
        rw [allocElems.eq_1]
        exact ⟨hca, ⟨[], by simp⟩, by intro p hp; cases hp⟩
      | cons v tl =>
        have hltv : sizeOf v < N := by
          have h1 : sizeOf v < sizeOf (v :: tl) := by simp <;> omega
          omega
        have hltl : sizeOf tl < N := by
          have h1 : sizeOf tl < sizeOf (v :: tl) := by simp <;> omega
          omega
        have hV := ((ih (sizeOf v) hltv).1) v h n le_rfl hn hca
        cases hav : allocValue v h with
        | mk h1 a =>
          simp only [hav] at hV
          obtain ⟨hcl1, ⟨t0, hht0⟩, haddr⟩ := hV
          have hlen1 : h.length ≤ h1.length := by rw [hht0]; simp
          have hT := ((ih (sizeOf tl) hltl).2.2) tl h1 n le_rfl (by omega) hcl1
          cases hat : allocElems tl h1 with
          | mk h2 as0 =>
            simp only [hat] at hT
            obtain ⟨hcl2, ⟨t1, hht1⟩, haddrs⟩ := hT
            rw [allocElems.eq_2]
            simp only [hav, hat]
            refine ⟨hcl2, ?_, ?_⟩
            · rw [hht1, hht0]
              exact ⟨t0 ++ t1, by rw [List.append_assoc]⟩
            · intro b hb
              cases hb with
              | head => exact haddr
              | tail _ hmem =>
                have := haddrs b hmem
                omega

/-- The set walk only stores at addresses inside the (closed) region it
was started in, so all cells below the bound survive. -/
theorem setWalkH_low : ∀ (path : List String) (h : Heap) (cur xa n : Nat),
    n ≤ h.length → n ≤ cur → ClosedAbove h n →
    ∀ a, a < n → (setWalkH h cur path xa).1[a]? = h[a]? := by
  intro path
  induction path with
  | nil => intro h cur xa n _ _ _ a _; rfl
  | cons key rest ih =>
    intro h cur xa n hn hcur hca a ha
    cases rest with
    | nil =>
      cases hc : h[cur]? with
      | none => simp only [setWalkH, hc]
      | some cell =>
        cases cell with
        | cobj fields =>
          simp only [setWalkH, hc]
          exact get?_set_ne _ _ _ _ (by omega)
        | carr elems =>
          simp only [setWalkH, hc]
          cases hci : canonIndex key with
          | none => simp only [hci]
          | some i =>
            simp only [hci]
            by_cases h1 : i < elems.length
            · simp only [if_pos h1]
              exact get?_set_ne _ _ _ _ (by omega)
            · simp only [if_neg h1]
              by_cases h2 : i = elems.length
              · simp only [if_pos h2]
                exact get?_set_ne _ _ _ _ (by omega)
              · simp only [if_neg h2]
        | cnull => simp only [setWalkH, hc]
        | cbool b => simp only [setWalkH, hc]
        | cnum q => simp only [setWalkH, hc]
        | cstr s => simp only [setWalkH, hc]
    | cons r1 rs =>
      cases hc : h[cur]? with
      | none => simp only [setWalkH, hc]
      | some cell =>
        cases cell with
        | cobj fields =>
          simp only [setWalkH, hc]
          cases hf : fields.find? (fun q => q.1 = key) with
          | some q =>
            simp only [hf]
            have hq2 : n ≤ q.2 := by
              refine hca cur _ hcur hc q.2 ?_
              rw [cellAddrs]
              exact List.mem_map.mpr ⟨q, List.mem_of_find?_eq_some hf, rfl⟩
            exact ih h q.2 xa n hn hq2 hca a ha
          | none =>
            simp only [hf]
            have hca1 : ClosedAbove (h ++ [HCell.cobj []]) n :=
              ClosedAbove_append hca _ (by intro b hb; simp [cellAddrs] at hb)
            have hca2 : ClosedAbove ((h ++ [HCell.cobj []]).set cur
                (.cobj (fields ++ [(key, h.length)]))) n := by
              refine ClosedAbove_set hca1 ?_
              intro b hb
              rw [cellAddrs] at hb
              obtain ⟨p, hp, hpb⟩ := List.mem_map.mp hb
              cases List.mem_append.mp hp with
              | inl hmem =>
                have := hca cur _ hcur hc p.2
                  (by rw [cellAddrs]; exact List.mem_map.mpr ⟨p, hmem, rfl⟩)
                omega
              | inr hone =>
                have hp2 : p = (key, h.length) := by simpa using hone
                rw [hp2] at hpb
                simp at hpb
                omega
            have hrec := ih ((h ++ [HCell.cobj []]).set cur
                (.cobj (fields ++ [(key, h.length)]))) h.length xa n
              (by simp only [List.length_set, List.length_append,
                List.length_singleton]; omega)
              (by omega) hca2 a ha
            rw [hrec, get?_set_ne _ _ _ _ (by omega)]
            exact List.getElem?_append_left (by omega)
        | carr elems =>
          simp only [setWalkH, hc]
          cases hci : canonIndex key with
          | none => simp only [hci]
          | some i =>
            simp only [hci]
            cases hg : elems.get? i with
            | some ca =>
              simp only [hg]
              have hcan : n ≤ ca := by
                refine hca cur _ hcur hc ca ?_
                rw [cellAddrs]
                exact List.get?_mem hg
              exact ih h ca xa n hn hcan hca a ha
            | none =>
              simp only [hg]
              by_cases he : i = elems.length
              · simp only [if_pos he]
                have hca1 : ClosedAbove (h ++ [HCell.cobj []]) n :=
                  ClosedAbove_append hca _ (by intro b hb; simp [cellAddrs] at hb)
                have hca2 : ClosedAbove ((h ++ [HCell.cobj []]).set cur
                    (.carr (elems ++ [h.length]))) n := by
                  refine ClosedAbove_set hca1 ?_
                  intro b hb
                  rw [cellAddrs] at hb
                  cases List.mem_append.mp hb with
                  | inl hmem =>
                    have := hca cur _ hcur hc b (by rw [cellAddrs]; exact hmem)
                    omega
                  | inr hone =>
                    have hb2 : b = h.length := by simpa using hone
                    omega
                have hrec := ih ((h ++ [HCell.cobj []]).set cur
                    (.carr (elems ++ [h.length]))) h.length xa n
                  (by simp only [List.length_set, List.length_append,
                    List.length_singleton]; omega)
                  (by omega) hca2 a ha
                rw [hrec, get?_set_ne _ _ _ _ (by omega)]
                exact List.getElem?_append_left (by omega)
              · simp only [if_neg he]
        | cnull => simp only [setWalkH, hc]
        | cbool b => simp only [setWalkH, hc]
        | cnum q => simp only [setWalkH, hc]
        | cstr s => simp only [setWalkH, hc]

/-- The delete walk only stores at the addresses it reached inside the
closed region, so all cells below the bound survive. -/
theorem delWalkH_low : ∀ (path : List String) (h : Heap) (cur n : Nat),
    n ≤ h.length → n ≤ cur → ClosedAbove h n →
    ∀ a, a < n → (delWalkH h cur path).1[a]? = h[a]? := by
  intro path
  induction path with
  | nil => intro h cur n _ _ _ a _; rfl
  | cons key rest ih =>
    intro h cur n hn hcur hca a ha
    cases rest with
    | nil =>
      cases hc : h[cur]? with
      | none => simp only [delWalkH, hc]
      | some cell =>
        cases cell with
        | cobj fields =>
          simp only [delWalkH, hc]
          exact get?_set_ne _ _ _ _ (by omega)
        | carr elems =>
          simp only [delWalkH, hc]
          cases hpi : parseIntJS key with
          | some i =>
            simp only [hpi]
            exact get?_set_ne _ _ _ _ (by omega)
          | none =>
            simp only [hpi]
            exact get?_set_ne _ _ _ _ (by omega)
        | cnull => simp only [delWalkH, hc]
        | cbool b => simp only [delWalkH, hc]
        | cnum q => simp only [delWalkH, hc]
        | cstr s => simp only [delWalkH, hc]
    | cons r1 rs =>
      cases hc : h[cur]? with
      | none => simp only [delWalkH, hc]
      | some cell =>
        cases cell with
        | cobj fields =>
          simp only [delWalkH, hc]
          cases hf : fields.find? (fun q => q.1 = key) with
          | some q =>
            simp only [hf]
            have hq2 : n ≤ q.2 := by
              refine hca cur _ hcur hc q.2 ?_
              rw [cellAddrs]
              exact List.mem_map.mpr ⟨q, List.mem_of_find?_eq_some hf, rfl⟩
            exact ih h q.2 n hn hq2 hca a ha
          | none => simp only [hf]
        | carr elems =>
          simp only [delWalkH, hc]
          by_cases hkl : key = "length"
          · simp only [if_pos hkl]
          · simp only [if_neg hkl]
            cases hci : canonIndex key with
            | none => simp only [hci]
            | some i =>
              simp only [hci]
              cases hg : elems.get? i with
              | some ca =>
                simp only [hg]
                have hcan : n ≤ ca := by
                  refine hca cur _ hcur hc ca ?_
                  rw [cellAddrs]
                  exact List.get?_mem hg
                exact ih h ca n hn hcan hca a ha
              | none => simp only [hg]
        | cnull => simp only [delWalkH, hc]
        | cbool b => simp only [delWalkH, hc]
        | cnum q => simp only [delWalkH, hc]
        | cstr s => simp only [delWalkH, hc]

/-- C2: `setValueByPath(root, p, x)` and `deleteValueByPath(root, p)`
never mutate the root argument.  Both build `JSON.parse(JSON.stringify(root))`
first and only store through the fresh copy, so the JSON value observed at
the root's address after the call is exactly the value observed before. -/
theorem C2_non_mutation (fuel : Nat) (h : Heap) (r : Nat) (path : List String)
    (xa : Nat) (v : JsonValue) (hv : readVal fuel h r = some v) :
    readVal fuel (setValueByPathH fuel h r path xa).1 r = some v
    ∧ readVal fuel (deleteValueByPathH fuel h r path).1 r = some v := by
  have hca0 : ClosedAbove h h.length := by
    intro a cell hle hget b hb
    rw [List.getElem?_eq_none hle] at hget
    cases hget
  constructor
  · cases path with
    | nil => exact hv
    | cons k rest =>
      cases hal : allocValue v h with
      | mk h1 nr =>
        have hA := (alloc_all (sizeOf v)).1 v h h.length le_rfl le_rfl hca0
        simp only [hal] at hA
        obtain ⟨hcl1, ⟨t0, hht⟩, hnr⟩ := hA
        have hn1 : h.length ≤ h1.length := by rw [hht]; simp
        have hset : (setValueByPathH fuel h r (k :: rest) xa).1
            = (setWalkH h1 nr (k :: rest) xa).1 := by
          simp only [setValueByPathH, hv, hal]
          cases hw : setWalkH h1 nr (k :: rest) xa with
          | mk h2 res => cases res <;> rfl
        rw [hset]
        have hlow := setWalkH_low (k :: rest) h1 nr xa h.length hn1 hnr hcl1
        refine readVal_stable fuel h _ ?_ r v hv
        intro a ha
        rw [hlow a ha, hht]
        exact List.getElem?_append_left (by omega)
  · cases path with
    | nil => exact hv
    | cons k rest =>
      cases hal : allocValue v h with
      | mk h1 nr =>
        have hA := (alloc_all (sizeOf v)).1 v h h.length le_rfl le_rfl hca0
        simp only [hal] at hA
        obtain ⟨hcl1, ⟨t0, hht⟩, hnr⟩ := hA
        have hn1 : h.length ≤ h1.length := by rw [hht]; simp
        have hdel : (deleteValueByPathH fuel h r (k :: rest)).1
            = (delWalkH h1 nr (k :: rest)).1 := by
          simp only [deleteValueByPathH, hv, hal]
          cases hw : delWalkH h1 nr (k :: rest) with
          | mk h2 res => cases res <;> rfl
        rw [hdel]
        have hlow := delWalkH_low (k :: rest) h1 nr h.length hn1 hnr hcl1
        refine readVal_stable fuel h _ ?_ r v hv
        intro a ha
        rw [hlow a ha, hht]
        exact List.getElem?_append_left (by omega)

/-- Witness for `C2_non_mutation` on the concrete heap
`[#0 ↦ \x7b a: #1 \x7d, #1 ↦ 5]`: setting `["a"]` and deleting `["a"]`
both leave the value read at the root address `#0` intact. -/
theorem C2_non_mutation_witness :
    readVal 3 [HCell.cobj [("a", 1)], HCell.cnum 5] 0
        = some (.obj [("a", .num 5)])
      ∧ readVal 3 (setValueByPathH 3 [HCell.cobj [("a", 1)], HCell.cnum 5] 0 ["a"] 1).1 0
        = some (.obj [("a", .num 5)])
      ∧ readVal 3 (deleteValueByPathH 3 [HCell.cobj [("a", 1)], HCell.cnum 5] 0 ["a"]).1 0
        = some (.obj [("a", .num 5)]) :=
  ⟨rfl,
    (C2_non_mutation 3 [HCell.cobj [("a", 1)], HCell.cnum 5] 0 ["a"] 1
      (.obj [("a", .num 5)]) rfl).1,
    (C2_non_mutation 3 [HCell.cobj [("a", 1)], HCell.cnum 5] 0 ["a"] 1
      (.obj [("a", .num 5)]) rfl).2⟩

end JsonEditor
